import Mathlib

/-!
Verification of the parallel iterative DNS resolver engine of `dnstrace`
(`client/cache.go`, `client/server.go`), as a shallow embedding.

Go strings are modelled as lists of characters (`Dom`); `time.Duration`
(an `int64` count of nanoseconds, far below overflow for the measured
round-trip times handled here) is modelled as `Int`; Go errors are
`Option String`; nilable pointers are `Option`.
-/

namespace Dnstrace

/-- A Go string holding a domain name, modelled as its list of characters
(byte = character for the ASCII wire-format names this tool handles). -/
abbrev Dom := List Char

/-- Convert a Lean string literal to a `Dom`. -/
def dstr (s : String) : Dom := s.data

/-- Embeds `strings.ToLower` (character-wise lowercasing). -/
def toLower (s : Dom) : Dom := s.map Char.toLower

/-- Number of consecutive backslashes at the end of `s` (used by
`dns.IsFqdn` to decide whether a final dot is escaped). -/
def trailingBackslashes (s : Dom) : Nat :=
  (s.reverse.takeWhile (fun c => c == '\\')).length

/-- Embeds `dns.IsFqdn`: `s` ends in a dot that is not escaped
(an even number of backslashes immediately precedes it). -/
def isFqdn (s : Dom) : Bool :=
  match s.getLast? with
  | none => false
  | some c => c == '.' && trailingBackslashes s.dropLast % 2 == 0

/-- Embeds `dns.Fqdn`: append a trailing dot unless already fully qualified. -/
def goFqdn (s : Dom) : Dom := if isFqdn s then s else s ++ ['.']

/-- Embeds `domainEqual` (client/server.go line 183):
case-insensitive FQDN comparison. -/
def domainEqual (d1 d2 : Dom) : Bool := toLower (goFqdn d1) == toLower (goFqdn d2)

/-- Number of consecutive backslashes in `s` immediately before index `i`. -/
def backslashesBefore (s : Dom) (i : Nat) : Nat :=
  match i with
  | 0 => 0
  | j + 1 => if s.getD j ' ' == '\\' then backslashesBefore s j + 1 else 0

/-- Loop of `dns.NextLabel` (miekg/dns): scan from `i` for the next
unescaped dot strictly before the final character of `s`; return the index
one past it with `end = false`, or one past the scan with `end = true`.
The Go loop condition `i < len(s)-1` is carried by the gas counter `g`,
which `nextLabel` initialises to the remaining scan length. -/
def nextLabelGo (s : Dom) : Nat → Nat → Nat × Bool
  | i, 0 => (i + 1, true)
  | i, g + 1 =>
    if s.getD i ' ' == '.' && backslashesBefore s i % 2 == 0 then (i + 1, false)
    else nextLabelGo s (i + 1) g

/-- Embeds `dns.NextLabel` (miekg/dns), the suffix-label walker used by
`DelegationCache.Get`. -/
def nextLabel (s : Dom) (offset : Nat) : Nat × Bool :=
  if s = [] then (0, true) else nextLabelGo s offset (s.length - 1 - offset)

theorem nextLabelGo_bounds (s : Dom) : ∀ g i, g + i + 1 ≤ s.length →
    (nextLabelGo s i g).2 = false →
    i < (nextLabelGo s i g).1 ∧ (nextLabelGo s i g).1 < s.length := by
  intro g
  induction g with
  | zero =>
    intro i _ hf
    exact absurd hf (by simp [nextLabelGo])
  | succ g ih =>
    intro i hg hf
    rw [nextLabelGo] at hf ⊢
    by_cases hc : (s.getD i ' ' == '.' && backslashesBefore s i % 2 == 0) = true
    · simp only [hc, if_true]
      omega
    · simp only [eq_false_of_ne_true hc, Bool.false_eq_true, if_false] at hf ⊢
      have := ih (i + 1) (by omega) hf
      omega

theorem nextLabel_bounds (s : Dom) (offset : Nat) :
    (nextLabel s offset).2 = false →
    offset < (nextLabel s offset).1 ∧ (nextLabel s offset).1 < s.length := by
  intro hf
  rw [nextLabel] at hf ⊢
  by_cases h : s = []
  · simp [h] at hf
  · simp only [h, if_false] at hf ⊢
    by_cases ho : offset + 1 ≤ s.length - 1
    · exact nextLabelGo_bounds s (s.length - 1 - offset) offset (by omega) hf
    · have hz : s.length - 1 - offset = 0 := by omega
      rw [hz] at hf
      exact absurd hf (by simp [nextLabelGo])

/-! ## Data model: servers, caches, messages, responses -/

/-- Embeds `Server` (client/cache.go lines 29-36): a name server hostname
with associated addresses, glue flag, NS TTL, and address-lookup outcome. -/
structure Server where
  name : Dom
  hasGlue : Bool
  ttl : Nat
  addrs : List String
  lookupRTT : Int
  lookupErr : Option String
deriving Repr, DecidableEq

/-- Helper for the root-server table below. -/
def mkRoot (n a1 a2 : String) : Server :=
  ⟨dstr n, true, 446311, [a1, a2], 0, none⟩

/-- Embeds the compiled-in `roots` list (client/cache.go lines 12-26). -/
def roots : List Server :=
  [ mkRoot "A.root-servers.net." "198.41.0.4" "2001:503:ba3e::2:30",
    mkRoot "B.root-servers.net." "199.9.14.201" "2001:500:200::b",
    mkRoot "C.root-servers.net." "192.33.4.12" "2001:500:2::c",
    mkRoot "D.root-servers.net." "199.7.91.13" "2001:500:2d::d",
    mkRoot "E.root-servers.net." "192.203.230.10" "2001:500:a8::e",
    mkRoot "F.root-servers.net." "192.5.5.241" "2001:500:2f::f",
    mkRoot "G.root-servers.net." "192.112.36.4" "2001:500:12::d0d",
    mkRoot "H.root-servers.net." "198.97.190.53" "2001:500:1::53",
    mkRoot "I.root-servers.net." "192.36.148.17" "2001:7fe::53",
    mkRoot "J.root-servers.net." "192.58.128.30" "2001:503:c27::2:30",
    mkRoot "K.root-servers.net." "193.0.14.129" "2001:7fd::1",
    mkRoot "L.root-servers.net." "199.7.83.42" "2001:500:9f::42",
    mkRoot "M.root-servers.net." "202.12.27.33" "2001:dc3::35" ]

/-- First value bound to a key in an association list; Go maps have at most
one entry per key, which the update below maintains. -/
def alLookup {β : Type} (c : List (Dom × β)) (k : Dom) : Option β :=
  match c with
  | [] => none
  | (k2, v) :: rest => if k2 = k then some v else alLookup rest k

/-- Go map assignment `c[k] = v`: replace the binding of `k`, or append it. -/
def alUpdate {β : Type} (c : List (Dom × β)) (k : Dom) (v : β) : List (Dom × β) :=
  match c with
  | [] => [(k, v)]
  | (k2, v2) :: rest => if k2 = k then (k, v) :: rest else (k2, v2) :: alUpdate rest k v

/-- The contents of `DelegationCache` (Go `map[string][]Server`), as an
association list. -/
abbrev DCacheL := List (Dom × List Server)

/-- Loop of `DelegationCache.Get` (client/cache.go lines 53-59): walk the
suffix labels of `domain` starting at `offset`; return the first cached
bucket, or the root bucket when the walk ends. -/
def dcGetLoop (c : DCacheL) (domain : Dom) (offset : Nat) : Dom × List Server :=
  let label := domain.drop offset
  match alLookup c label with
  | some bucket => (label, bucket)
  | none =>
    match h : nextLabel domain offset with
    | (o2, false) => dcGetLoop c domain o2
    | (_, true) => (dstr ".", roots)
termination_by domain.length + 1 - offset
decreasing_by
  have hb := nextLabel_bounds domain offset (by rw [h])
  rw [h] at hb
  simp only at hb
  omega

/-- Embeds `DelegationCache.Get` (client/cache.go lines 49-61): lowercase the
name, then walk its suffix labels for the most specific cached bucket. -/
def dcGet (c : DCacheL) (domain : Dom) : Dom × List Server :=
  dcGetLoop c (toLower domain) 0

/-- Embeds `DelegationCache.Add` (client/cache.go lines 65-79): insert
`server` under `domain` unless that bucket already holds a server with the
same case-insensitive FQDN name; also returns whether insertion occurred. -/
def dcAdd (c : DCacheL) (domain : Dom) (server : Server) : DCacheL × Bool :=
  let key := toLower domain
  let bucket := (alLookup c key).getD []
  if bucket.any (fun s2 => domainEqual s2.name server.name) then (c, false)
  else (alUpdate c key (bucket ++ [server]), true)

/-- Embeds `AddressAttempt` (client/cache.go lines 82-85): resolved
addresses plus the retry count while unresolved. `retryCount` is a Go
`uint8`; every increment below reduces modulo 256. -/
structure AddressAttempt where
  addresss : List String
  retryCount : Nat
deriving Repr, DecidableEq

/-- The contents of `LookupCache` (Go `map[string]AddressAttempt`). -/
abbrev LCacheL := List (Dom × AddressAttempt)

/-- Embeds `LookupCache.Get` (client/cache.go lines 127-131); a missing key
yields Go's zero value. -/
def lcGetAA (c : LCacheL) (label : Dom) : AddressAttempt :=
  (alLookup c (toLower label)).getD ⟨[], 0⟩

/-- Embeds `LookupCache.IncAttempt` (client/cache.go lines 95-107): bump the
retry count while no addresses are cached. -/
def lcIncAttempt (c : LCacheL) (label : Dom) : LCacheL :=
  let key := toLower label
  let aa := (alLookup c key).getD ⟨[], 0⟩
  if aa.addresss = [] then alUpdate c key ⟨aa.addresss, (aa.retryCount + 1) % 256⟩
  else c

/-- Embeds `LookupCache.Set` (client/cache.go lines 108-124): store non-empty
addresses with a retry count of one; an empty list only bumps the count
while no addresses are cached. -/
def lcSet (c : LCacheL) (label : Dom) (addrs : List String) : LCacheL :=
  let key := toLower label
  if addrs = [] then
    let aa := (alLookup c key).getD ⟨[], 0⟩
    if aa.addresss = [] then alUpdate c key ⟨aa.addresss, (aa.retryCount + 1) % 256⟩
    else c
  else alUpdate c key ⟨addrs, 1⟩

/-- DNS RR type codes used by the client (miekg/dns). -/
def typeA : Nat := 1

def typeNS : Nat := 2

def typeCNAME : Nat := 5

def typeAAAA : Nat := 28

def typeDS : Nat := 43

/-- A resource record as the client observes it after unpacking: the Go
dynamic types `*dns.CNAME`, `*dns.NS`, `*dns.A`, `*dns.AAAA` (the ones the
code type-asserts on) are constructors; every other concrete type — DS
records included — is `other`, carrying its type code. -/
inductive RR where
  | cname (name : Dom) (ttl : Nat) (target : Dom)
  | ns (name : Dom) (ttl : Nat) (nsName : Dom)
  | a (name : Dom) (ttl : Nat) (addr : String)
  | aaaa (name : Dom) (ttl : Nat) (addr : String)
  | other (name : Dom) (ttl : Nat) (rrtype : Nat)
deriving Repr, DecidableEq

/-- `rr.Header().Name`. -/
def RR.hname : RR → Dom
  | .cname n _ _ => n
  | .ns n _ _ => n
  | .a n _ _ => n
  | .aaaa n _ _ => n
  | .other n _ _ => n

/-- `rr.Header().Rrtype`. -/
def RR.rrtype : RR → Nat
  | .cname .. => typeCNAME
  | .ns .. => typeNS
  | .a .. => typeA
  | .aaaa .. => typeAAAA
  | .other _ _ t => t

/-- `rr.Header().Ttl`. -/
def RR.ttlOf : RR → Nat
  | .cname _ t _ => t
  | .ns _ t _ => t
  | .a _ t _ => t
  | .aaaa _ t _ => t
  | .other _ t _ => t

/-- Whether `rr` is a `*dns.CNAME` (equivalently, for an unpacked record,
whether `rr.Header().Rrtype == dns.TypeCNAME`). -/
def RR.isCNAME : RR → Bool
  | .cname .. => true
  | _ => false

/-- Whether `rr` is a `*dns.NS`. -/
def RR.isNS : RR → Bool
  | .ns .. => true
  | _ => false

/-- A question of a DNS message (`dns.Question`; the class field, always
INET here, is omitted). -/
structure Question where
  name : Dom
  qtype : Nat
deriving Repr, DecidableEq

/-- A DNS message as the client uses it: question, answer, authority
(`Ns`) and additional (`Extra`) sections. -/
structure Msg where
  question : List Question
  answer : List RR
  ns : List RR
  extra : List RR
deriving Repr, DecidableEq

/-- Embeds `Response` (client/server.go lines 119-125). -/
structure Response where
  server : Server
  addr : String
  msg : Option Msg
  rtt : Int
  err : Option String
deriving Repr, DecidableEq

/-- Go's zero `Server` value. -/
def zeroServer : Server := ⟨[], false, 0, [], 0, none⟩

/-- Go's zero `Response` value (`var fr Response` in `Fastest`). -/
def zeroResponse : Response := ⟨zeroServer, "", none, 0, none⟩

/-- The loop body of `Responses.Fastest` (client/server.go lines 132-139):
skip errored responses; take `r` when no message is held yet or `r`'s
`rtt + lookupRTT` is strictly smaller. -/
def fastestUpd (fr r : Response) : Response :=
  if r.err.isSome then fr
  else if fr.msg.isNone || decide (r.rtt + r.server.lookupRTT < fr.rtt + fr.server.lookupRTT)
  then r
  else fr

/-- The loop of `Responses.Fastest` (client/server.go lines 130-141), as a
fold starting from the zero `Response`. -/
def fastestFold (rs : List Response) : Response :=
  rs.foldl fastestUpd zeroResponse

/-- Embeds `Responses.Fastest`: the function returns `&fr`, a pointer that
is never nil; the pointer is modelled as `some`. -/
def fastest (rs : List Response) : Option Response := some (fastestFold rs)

/-! ## Response classification and the driver loop -/

/-- Embeds `ResponseType` (client/server.go lines 109-116). -/
inductive ResponseType where
  | unknown
  | delegation
  | cname
  | final
deriving Repr, DecidableEq

/-- The variables threaded through the answer-section scan of
`RecursiveQuery` (client/server.go lines 234-246): the classification so
far, the owner of the last CNAME followed, and the current question name
and zone. -/
structure ScanState where
  rtype : ResponseType
  cname : Dom
  qname : Dom
  zone : Dom
deriving Repr, DecidableEq

/-- Embeds the `for _, rr := range r.Answer` classification loop
(client/server.go lines 236-246): a record owned by the current `qname`
with the question type ends the scan as Final; a CNAME rebinds `qname` to
its target, resets `zone` to `"."`, and marks the scan CNAME. -/
def answerScan (qtype : Nat) : List RR → ScanState → ScanState
  | [], st => st
  | rr :: rest, st =>
    if domainEqual rr.hname st.qname && rr.rrtype == qtype then { st with rtype := .final }
    else
      match rr with
      | .cname nm _ tgt =>
        answerScan qtype rest { rtype := .cname, cname := nm, qname := tgt, zone := dstr "." }
      | _ => answerScan qtype rest st

/-- Embeds the authority-section scan (client/server.go lines 248-254):
the owner of the first NS record strictly longer than `zone`, if any. -/
def nsScan (zone : Dom) : List RR → Option Dom
  | [] => none
  | rr :: rest =>
    match rr with
    | .ns nm _ _ => if zone.length < nm.length then some nm else nsScan zone rest
    | _ => nsScan zone rest

/-- One response classification (client/server.go lines 234-259): scan the
answers; if still Unknown, scan the authority section for a deeper NS
owner (Delegation, adopting that owner as the zone), else default to
Final. -/
def classifyStep (qtype : Nat) (r : Msg) (qname zone : Dom) : ScanState :=
  let st := answerScan qtype r.answer ⟨.unknown, [], qname, zone⟩
  if st.rtype = .unknown then
    match nsScan st.zone r.ns with
    | some nm => { st with rtype := .delegation, zone := nm }
    | none => { st with rtype := .final }
  else st

/-- Glue collection for one NS target (client/server.go lines 268-278):
addresses of A/AAAA records in the additional section whose owner matches
the target. -/
def glueAddrs (extra : List RR) (target : Dom) : List String :=
  extra.foldl
    (fun acc rr =>
      if domainEqual rr.hname target then
        match rr with
        | .a _ _ ad => acc ++ [ad]
        | .aaaa _ _ ad => acc ++ [ad]
        | _ => acc
      else acc)
    []

/-- The two run-wide caches of a `Client`. -/
structure Caches where
  d : DCacheL
  l : LCacheL
deriving Repr, DecidableEq

/-- Embeds the delegation-insertion loop (client/server.go lines 261-292):
skip non-NS records; for each NS build a `Server` from its glue and insert
it under the NS owner, mirroring it in the lookup cache; an untraced run
(`tracer.GotIntermediaryResponse == nil`) breaks after the first NS. -/
def processDelegation (extra : List RR) (traced : Bool) : List RR → Caches → Caches
  | [], cs => cs
  | rr :: rest, cs =>
    match rr with
    | .ns name ttl tgt =>
      let addrs := glueAddrs extra tgt
      let s : Server := ⟨tgt, !addrs.isEmpty, ttl, addrs, 0, none⟩
      let cs2 : Caches := ⟨(dcAdd cs.d name s).1, lcSet cs.l tgt addrs⟩
      if traced then processDelegation extra traced rest cs2 else cs2
    | _ => processDelegation extra traced rest cs

/-- The driver-loop variables that survive an iteration. -/
structure DriverState where
  qname : Dom
  zone : Dom
  rtt : Int
  caches : Caches
deriving Repr, DecidableEq

/-- Outcome of one driver iteration: a return from `RecursiveQuery`, or the
state carried into the next iteration. -/
inductive StepRes where
  | ret (msg : Option Msg) (rtt : Int) (err : Option String)
  | next (st : DriverState)
deriving Repr, DecidableEq

/-- One iteration of the `RecursiveQuery` driver loop (client/server.go
lines 197-305). The network fan-out and the parallel address-completion
pass are abstracted by `env`, which supplies the `Responses` collected at
iteration `z` (per-send message copying is modelled separately below; the
address-completion pass touches no state this model's claims depend on).
If the fastest pointer's message is nil the driver returns the first
response (or a "no response" error); otherwise it accumulates the fastest
response's RTTs, classifies, inserts delegations, and either returns the
final answer or continues. -/
def driverStep (qtype : Nat) (traced : Bool) (env : Nat → List Response) (z : Nat)
    (st : DriverState) : StepRes :=
  let rs := env z
  let fr := fastestFold rs
  match fr.msg with
  | none =>
    match rs with
    | [] => .ret none st.rtt (some "no response")
    | r0 :: _ => .ret r0.msg (st.rtt + r0.rtt) r0.err
  | some r =>
    let rtt2 := st.rtt + fr.server.lookupRTT + fr.rtt
    let sc := classifyStep qtype r st.qname st.zone
    let cs2 :=
      if sc.rtype = .delegation then processDelegation r.extra traced r.ns st.caches
      else st.caches
    match sc.rtype with
    | .final => .ret (some r) rtt2 none
    | _ => .next ⟨sc.qname, sc.zone, rtt2, cs2⟩

/-- The driver loop `for z := 1; z < 4; z++` (client/server.go line 196)
with its fall-through `return nil, rtt, nil` (lines 306-308). The counter
`g` holds the remaining iterations `4 - z`, so the budget-exhausted exit
is the `g = 0` case. -/
def driverLoop (qtype : Nat) (traced : Bool) (env : Nat → List Response) :
    Nat → Nat → DriverState → Option Msg × Int × Option String
  | 0, _, st => (none, st.rtt, none)
  | g + 1, z, st =>
    match driverStep qtype traced env z st with
    | .ret m rtt e => (m, rtt, e)
    | .next st2 => driverLoop qtype traced env g (z + 1) st2

/-- Embeds the driver of `RecursiveQuery` (client/server.go lines 190-308):
initial zone `"."`, zero accumulated RTT, iterations numbered from 1 with
an iteration budget of 3. -/
def recursiveQueryModel (qname : Dom) (qtype : Nat) (traced : Bool)
    (env : Nat → List Response) (cs : Caches) : Option Msg × Int × Option String :=
  driverLoop qtype traced env 3 1 ⟨qname, dstr ".", 0, cs⟩

/-! ## The nameserver-address retry protocol (`lookupHost`) -/

/-- One invocation of `lookupHost` (client/server.go lines 311-354) for
question name `q`, the caches' mutex serialising its cache operations.
The outcome of its two nested `RecursiveQuery` calls is abstracted:
`none` means one of them returned an error (the early `return nil, 0`
skips `Set`); `some addrs` means both succeeded and `addrs` were collected
from their answers (then `Set` runs). Returns the updated lookup cache and
the number of `RecursiveQuery` entries made with question name `q` and
type A or AAAA: two whenever the entry gate passes, zero otherwise. -/
def lookupHostStep (maxRetry : Nat) (c : LCacheL) (q : Dom)
    (outcome : Option (List String)) : LCacheL × Nat :=
  let aa := lcGetAA c q
  if !aa.addresss.isEmpty || decide (maxRetry < aa.retryCount) then (c, 0)
  else
    let c1 := lcIncAttempt c q
    match outcome with
    | none => (c1, 2)
    | some addrs => (lcSet c1 q addrs, 2)

/-- Fold a sequence of serialised `lookupHost` invocations (for arbitrary
question names and outcomes) over the lookup cache, counting the
`RecursiveQuery` entries attributed to the hostname `h`. -/
def runLookups (maxRetry : Nat) (h : Dom) :
    List (Dom × Option (List String)) → LCacheL → LCacheL × Nat
  | [], c => (c, 0)
  | (q, o) :: evs, c =>
    let r1 := lookupHostStep maxRetry c q o
    let r2 := runLookups maxRetry h evs r1.1
    (r2.1, (if q = h then r1.2 else 0) + r2.2)

/-- Remaining `RecursiveQuery`-entry budget the retry protocol can still
spend on a hostname whose cache entry is `aa`: two entries per remaining
gate pass, none once addresses are cached. -/
def retryBudget (maxRetry : Nat) (aa : AddressAttempt) : Nat :=
  if aa.addresss.isEmpty then 2 * (maxRetry + 1 - aa.retryCount) else 0

/-! ## Message mutation model

Go `*dns.Msg` values are pointers into a heap. To settle the frame claim —
`RecursiveQuery` never mutates its caller's message — the heap of live
messages is modelled as a list (`Store`), a pointer as an index, `Copy` as
an allocation at the end, and the two in-place mutations of the code
(`m.Question[0].Name = qname` and `SetQuestion`/`Qtype` on a fresh copy)
as writes. The model mirrors where `RecursiveQuery`, `ParallelQuery` and
`lookupHost` copy and write (client/server.go lines 160-181, 190-308,
311-354); responses, lookup decisions and the gate of `lookupHost` are
supplied by an environment, since they come from the network and the
caches and have no message-store effect of their own. -/

/-- The heap of live `dns.Msg` values. -/
abbrev Store := List Msg

/-- Dereference a message pointer. -/
def storeGet (st : Store) (r : Nat) : Msg := st.getD r ⟨[], [], [], []⟩

/-- `m.Copy()`: allocate a fresh message holding the same value. -/
def storeCopy (st : Store) (r : Nat) : Store × Nat := (st ++ [storeGet st r], st.length)

/-- In-place mutation of the message at `r`. -/
def storeSet (st : Store) (r : Nat) (m : Msg) : Store := st.set r m

/-- `m.Question[0].Name = qname` (client/server.go line 218; Go would panic
on an empty question section, modelled as a no-op write). -/
def storeSetQName (st : Store) (r : Nat) (qname : Dom) : Store :=
  let m := storeGet st r
  storeSet st r
    { m with
      question :=
        match m.question with
        | [] => []
        | q :: qs => { q with name := qname } :: qs }

/-- `m.Question[0].Qtype = qtype` (client/server.go line 322). -/
def storeSetQType (st : Store) (r : Nat) (qtype : Nat) : Store :=
  let m := storeGet st r
  storeSet st r
    { m with
      question :=
        match m.question with
        | [] => []
        | q :: qs => { q with qtype := qtype } :: qs }

/-- `lm.SetQuestion(name, qtype)` (miekg/dns): replace the question section
with the single given question. -/
def storeSetQuestion (st : Store) (r : Nat) (name : Dom) (qtype : Nat) : Store :=
  let m := storeGet st r
  storeSet st r { m with question := [⟨name, qtype⟩] }

/-- The copies made by `ParallelQuery` (client/server.go line 171): one
`m.Copy()` per (server, address) pair handed to `Exchange`; the wire layer
mutates only those copies. `n` is the number of pairs. -/
def storeParallelCopies (st : Store) (r : Nat) : Nat → Store
  | 0 => st
  | k + 1 => storeParallelCopies (storeCopy st r).1 r k

/-- Environment of the store-level model, addressed by the call path (the
stack of choices made so far): the responses each fan-out collects, the
name-server names the address-completion pass resolves, and whether
`lookupHost`'s entry gate passes. -/
structure REnv where
  resp : List Nat → Nat → List Response
  lookups : List Nat → Nat → List Dom
  proceed : List Nat → Bool

mutual

/-- Store-level model of `RecursiveQuery` (client/server.go lines 190-308):
copy the caller's message at entry, then run the driver loop on the copy.
`fuel` cuts the nested recursion off (returning the store unchanged); the
code bounds that recursion by the retry ceiling instead. -/
def storeRecQuery (env : REnv) (path : List Nat) (fuel : Nat) (st : Store)
    (mref : Nat) (traced : Bool) : Store :=
  match fuel with
  | 0 => st
  | f + 1 =>
    let c := storeCopy st mref
    let m := storeGet c.1 c.2
    let q := m.question.headD ⟨[], 0⟩
    storeDriverLoop env path f c.1 c.2 q.qtype traced q.name (dstr ".") 1

/-- Store effects of one pass of the driver loop at iteration `z`: the
address-completion copies, the question-name write on the working copy,
the per-send copies of `ParallelQuery`, the tracer's copy, then loop on
the classified outcome exactly as `driverStep` does. -/
def storeDriverLoop (env : REnv) (path : List Nat) (fuel : Nat) (st : Store)
    (mref : Nat) (qtype : Nat) (traced : Bool) (qname zone : Dom) (z : Nat) : Store :=
  match fuel with
  | 0 => st
  | f + 1 =>
    if z < 4 then
      let st1 := storeLookupPass env path f st mref z (env.lookups path z)
      let st2 := storeSetQName st1 mref qname
      let rs := env.resp path z
      let st3 := storeParallelCopies st2 mref rs.length
      let fr := fastestFold rs
      match fr.msg with
      | none => st3
      | some r =>
        let sc := classifyStep qtype r qname zone
        let st4 := if traced then (storeCopy st3 mref).1 else st3
        match sc.rtype with
        | .final => st4
        | _ => storeDriverLoop env path f st4 mref qtype traced sc.qname sc.zone (z + 1)
    else st

/-- The address-completion pass (client/server.go lines 200-216): for each
server whose addresses are missing, copy the working message, point its
question at the server name, and hand it to `lookupHost`. -/
def storeLookupPass (env : REnv) (path : List Nat) (fuel : Nat) (st : Store)
    (mref : Nat) (z : Nat) (names : List Dom) : Store :=
  match fuel with
  | 0 => st
  | f + 1 =>
    match names with
    | [] => st
    | n :: rest =>
      let c := storeCopy st mref
      let st1 := storeSetQuestion c.1 c.2 n 0
      let st2 := storeLookupHost env (path ++ [z, rest.length]) f st1 c.2
      storeLookupPass env path f st2 mref z rest

/-- Store effects of `lookupHost` (client/server.go lines 311-331): when
the cache gate passes, one copy per question type (A, AAAA), a qtype write
on each copy, and a nested `RecursiveQuery` on each. -/
def storeLookupHost (env : REnv) (path : List Nat) (fuel : Nat) (st : Store)
    (lmref : Nat) : Store :=
  match fuel with
  | 0 => st
  | f + 1 =>
    if env.proceed path then
      let c1 := storeCopy st lmref
      let st1 := storeSetQType c1.1 c1.2 typeA
      let st2 := storeRecQuery env (path ++ [0]) f st1 c1.2 false
      let c2 := storeCopy st2 lmref
      let st3 := storeSetQType c2.1 c2.2 typeAAAA
      storeRecQuery env (path ++ [1]) f st3 c2.2 false
    else st

end

/-! ## Spec-side notions -/

/-- The cost the spec says `Fastest` minimises. -/
def totalRTT (r : Response) : Int := r.rtt + r.server.lookupRTT

/-- The error-free responses of a fan-out, in iteration order. -/
def succResponses (rs : List Response) : List Response :=
  rs.filter (fun r => r.err.isNone)

/-- Keep the current minimiser `m`, replacing it only on a strictly
smaller `totalRTT` (so ties keep the earlier response). -/
def argminAux (m : Response) (l : List Response) : Response :=
  l.foldl (fun m r => if totalRTT r < totalRTT m then r else m) m

/-- Modelled from the spec's words, for comparison with `fastest`
("returns the response minimising `rtt + server.lookupRTT` …
tie-break: first in iteration order"): the first minimiser of `totalRTT`. -/
def argminFirst : List Response → Option Response
  | [] => none
  | r :: l => some (argminAux r l)

/-- Whether the delegation cache holds, under zone `owner`, a server whose
name equals `srv` up to case-insensitive FQDN comparison. -/
def hasServerNamed (d : DCacheL) (owner srv : Dom) : Bool :=
  ((alLookup d (toLower owner)).getD []).any (fun t => domainEqual t.name srv)

/-- The offsets visited by `DelegationCache.Get`'s walk over `d`. -/
def walkedOffsets (d : Dom) (offset : Nat) : List Nat :=
  offset ::
    (match h : nextLabel d offset with
     | (o2, false) => walkedOffsets d o2
     | (_, true) => [])
termination_by d.length + 1 - offset
decreasing_by
  have hb := nextLabel_bounds d offset (by rw [h])
  rw [h] at hb
  simp only at hb
  omega

/-- The suffix labels `DelegationCache.Get` consults, most specific first. -/
def walkedSuffixes (d : Dom) : List Dom :=
  (walkedOffsets d 0).map (fun o => d.drop o)

/-! ## Shared lemmas -/

theorem domainEqual_iff (d1 d2 : Dom) :
    domainEqual d1 d2 = true ↔ toLower (goFqdn d1) = toLower (goFqdn d2) := by
  simp [domainEqual]

theorem domainEqual_symm {d1 d2 : Dom} (h : domainEqual d1 d2 = true) :
    domainEqual d2 d1 = true := by
  rw [domainEqual_iff] at h ⊢
  exact h.symm

theorem domainEqual_trans {d1 d2 d3 : Dom} (h1 : domainEqual d1 d2 = true)
    (h2 : domainEqual d2 d3 = true) : domainEqual d1 d3 = true := by
  rw [domainEqual_iff] at h1 h2 ⊢
  exact h1.trans h2

theorem alLookup_alUpdate_self {β : Type} (c : List (Dom × β)) (k : Dom) (v : β) :
    alLookup (alUpdate c k v) k = some v := by
  induction c with
  | nil => simp [alUpdate, alLookup]
  | cons p rest ih =>
    obtain ⟨k2, v2⟩ := p
    by_cases h : k2 = k
    · simp [alUpdate, alLookup, h]
    · simp [alUpdate, alLookup, h, ih]

theorem alLookup_alUpdate_ne {β : Type} (c : List (Dom × β)) (k k2 : Dom) (v : β)
    (h : k ≠ k2) : alLookup (alUpdate c k v) k2 = alLookup c k2 := by
  induction c with
  | nil => simp [alUpdate, alLookup, h]
  | cons p rest ih =>
    obtain ⟨k3, v3⟩ := p
    by_cases h3 : k3 = k
    · simp [alUpdate, alLookup, h3, h]
    · simp only [alUpdate, alLookup, if_neg h3]
      by_cases h4 : k3 = k2 <;> simp [alLookup, h4, ih]

/-! ## Claim C9: idempotence of `DelegationCache.Add` -/

/-- C9: a second `Add` under the same zone with a server whose name equals
the first server's name up to case-insensitive FQDN comparison returns
`false` and leaves the delegation cache exactly as it was after the first
`Add`. -/
theorem dcAdd_idempotent (c : DCacheL) (z : Dom) (s s2 : Server)
    (h : domainEqual s2.name s.name = true) :
    dcAdd (dcAdd c z s).1 z s2 = ((dcAdd c z s).1, false) := by
  show dcAdd (dcAdd c z s).1 z s2 = ((dcAdd c z s).1, false)
  by_cases hany :
      ((alLookup c (toLower z)).getD []).any (fun t => domainEqual t.name s.name) = true
  · have h1 : dcAdd c z s = (c, false) := by
      simp only [dcAdd, hany, if_true]
    rw [h1]
    have hany2 :
        ((alLookup c (toLower z)).getD []).any (fun t => domainEqual t.name s2.name) = true := by
      rw [List.any_eq_true] at hany ⊢
      obtain ⟨t, ht, hdt⟩ := hany
      exact ⟨t, ht, domainEqual_trans (by simpa using hdt) (domainEqual_symm h)⟩
    simp only [dcAdd, hany2, if_true]
  · have h1 : dcAdd c z s =
        (alUpdate c (toLower z) (((alLookup c (toLower z)).getD []) ++ [s]), true) := by
      simp only [dcAdd, hany, if_false]
      simp only [Bool.not_eq_true] at hany
      simp [hany]
    rw [h1]
    have hl := alLookup_alUpdate_self c (toLower z) (((alLookup c (toLower z)).getD []) ++ [s])
    have hany2 :
        ((alLookup (alUpdate c (toLower z) (((alLookup c (toLower z)).getD []) ++ [s]))
            (toLower z)).getD []).any (fun t => domainEqual t.name s2.name) = true := by
      rw [hl]
      simp only [Option.getD_some, List.any_append, List.any_cons, List.any_nil]
      have : domainEqual s.name s2.name = true := domainEqual_symm h
      simp [this]
    simp only [dcAdd, hany2, if_true]

/-- Witness for C9 at concrete inputs: the names differ only in case, the
second `Add` reports no insertion and returns the unchanged cache. -/
theorem dcAdd_idempotent_witness :
    domainEqual (dstr "NS1.example.") (dstr "ns1.example.") = true ∧
      dcAdd
          (dcAdd [] (dstr "com.") ⟨dstr "ns1.example.", true, 60, ["192.0.2.1"], 0, none⟩).1
          (dstr "com.") ⟨dstr "NS1.example.", false, 60, [], 0, none⟩ =
        ((dcAdd [] (dstr "com.") ⟨dstr "ns1.example.", true, 60, ["192.0.2.1"], 0, none⟩).1,
          false) :=
  ⟨by decide,
    dcAdd_idempotent [] (dstr "com.")
      ⟨dstr "ns1.example.", true, 60, ["192.0.2.1"], 0, none⟩
      ⟨dstr "NS1.example.", false, 60, [], 0, none⟩ (by decide)⟩

/-! ## Claim C1: `Responses.Fastest` -/

theorem succResponses_cons_err {r : Response} (l : List Response)
    (h : r.err.isSome = true) : succResponses (r :: l) = succResponses l := by
  cases he : r.err with
  | none => rw [he] at h; simp at h
  | some e => simp [succResponses, List.filter_cons, he]

theorem succResponses_cons_ok {r : Response} (l : List Response)
    (h : r.err = none) : succResponses (r :: l) = r :: succResponses l := by
  simp [succResponses, List.filter_cons, h]

theorem argminAux_cons (m r : Response) (l : List Response) :
    argminAux m (r :: l) = argminAux (if totalRTT r < totalRTT m then r else m) l :=
  rfl

theorem fastestUpd_err {fr r : Response} (h : r.err.isSome = true) :
    fastestUpd fr r = fr := by
  simp [fastestUpd, h]

theorem fastestUpd_ok_some {fr r : Response} (he : r.err.isSome = false)
    (hm : fr.msg.isSome = true) :
    fastestUpd fr r = if totalRTT r < totalRTT fr then r else fr := by
  have hn : fr.msg.isNone = false := by
    cases hmm : fr.msg with
    | none => rw [hmm] at hm; simp at hm
    | some m => rfl
  simp [fastestUpd, he, hn, totalRTT]

theorem foldl_fastestUpd_some (l : List Response) : ∀ acc : Response,
    acc.msg.isSome = true → (∀ r ∈ l, r.err = none → r.msg.isSome = true) →
    l.foldl fastestUpd acc = argminAux acc (succResponses l) := by
  induction l with
  | nil => intro acc _ _; simp [succResponses, argminAux]
  | cons r l ih =>
    intro acc hacc hl
    by_cases he : r.err.isSome = true
    · rw [List.foldl_cons, fastestUpd_err he, succResponses_cons_err l he]
      exact ih acc hacc (fun r2 h2 => hl r2 (List.mem_cons_of_mem r h2))
    · have henone : r.err = none := by
        cases hre : r.err with
        | none => rfl
        | some e => rw [hre] at he; simp at he
      have hrmsg : r.msg.isSome = true := hl r (List.mem_cons_self r l) henone
      rw [List.foldl_cons, fastestUpd_ok_some (by simp [henone]) hacc,
        succResponses_cons_ok l henone, argminAux_cons]
      have hnext : (if totalRTT r < totalRTT acc then r else acc).msg.isSome = true := by
        split <;> assumption
      exact ih _ hnext (fun r2 h2 => hl r2 (List.mem_cons_of_mem r h2))

/-- C1 (amended): `Fastest` never returns a nil pointer; it returns `&fr`
where `fr` starts as the zero `Response` (nil message). Provided every
error-free response carries a non-nil message (as `Exchange` guarantees),
the pointed-to value is the first error-free response minimising
`rtt + server.lookupRTT` — the zero `Response` when none succeeded. -/
theorem fastest_spec (rs : List Response)
    (hmsg : ∀ r ∈ rs, r.err = none → r.msg.isSome = true) :
    fastest rs = some ((argminFirst (succResponses rs)).getD zeroResponse) := by
  unfold fastest
  congr 1
  induction rs with
  | nil => simp [fastestFold, succResponses, argminFirst, zeroResponse]
  | cons r l ih =>
    by_cases he : r.err.isSome = true
    · have h1 : fastestFold (r :: l) = fastestFold l := by
        simp only [fastestFold, List.foldl_cons, fastestUpd_err he]
      rw [h1, succResponses_cons_err l he]
      exact ih (fun r2 h2 h3 => hmsg r2 (List.mem_cons_of_mem r h2) h3)
    · have henone : r.err = none := by
        cases hre : r.err with
        | none => rfl
        | some e => rw [hre] at he; simp at he
      have hrmsg : r.msg.isSome = true := hmsg r (List.mem_cons_self r l) henone
      have h1 : fastestFold (r :: l) = l.foldl fastestUpd r := by
        simp only [fastestFold, List.foldl_cons]
        congr 1
        simp [fastestUpd, henone, zeroResponse]
      rw [h1, foldl_fastestUpd_some l r hrmsg
        (fun r2 h2 h3 => hmsg r2 (List.mem_cons_of_mem r h2) h3),
        succResponses_cons_ok l henone]
      simp [argminFirst]

/-- Witness for C1's amended theorem: of two successes the strictly faster
second one is returned. -/
theorem fastest_spec_witness :
    (∀ r ∈ [(⟨zeroServer, "a", some ⟨[], [], [], []⟩, 9, none⟩ : Response),
        ⟨zeroServer, "b", some ⟨[], [], [], []⟩, 4, none⟩],
        r.err = none → r.msg.isSome = true) ∧
      fastest [(⟨zeroServer, "a", some ⟨[], [], [], []⟩, 9, none⟩ : Response),
          ⟨zeroServer, "b", some ⟨[], [], [], []⟩, 4, none⟩] =
        some ⟨zeroServer, "b", some ⟨[], [], [], []⟩, 4, none⟩ := by
  refine ⟨by decide, ?_⟩
  rw [fastest_spec _ (by decide)]
  decide

/-- C1 counterexample: the claim says `Fastest` returns nil when no
response has a nil error, but on a list whose single response errored the
code still returns a (non-nil) pointer to the zero `Response`. -/
theorem fastest_never_nil_counterexample :
    fastest [(⟨zeroServer, "a", none, 5, some "i/o timeout"⟩ : Response)] ≠ none := by
  decide

/-- Any `argminAux` result is the seed or a list element, and its
`totalRTT` is minimal among both. -/
theorem argminAux_min (l : List Response) : ∀ m : Response,
    (argminAux m l = m ∨ argminAux m l ∈ l) ∧
      totalRTT (argminAux m l) ≤ totalRTT m ∧
      ∀ r ∈ l, totalRTT (argminAux m l) ≤ totalRTT r := by
  induction l with
  | nil => intro m; simp [argminAux]
  | cons r l ih =>
    intro m
    rw [argminAux_cons]
    by_cases h : totalRTT r < totalRTT m
    · simp only [h, if_true]
      obtain ⟨hmem, hle, hall⟩ := ih r
      refine ⟨?_, ?_, ?_⟩
      · rcases hmem with h2 | h2
        · right; rw [h2]; exact List.mem_cons_self r l
        · exact Or.inr (List.mem_cons_of_mem r h2)
      · omega
      · intro r2 h2
        rcases List.mem_cons.mp h2 with h3 | h3
        · rw [h3]; omega
        · exact hall r2 h3
    · simp only [h, if_false]
      obtain ⟨hmem, hle, hall⟩ := ih m
      refine ⟨?_, hle, ?_⟩
      · rcases hmem with h2 | h2
        · exact Or.inl h2
        · exact Or.inr (List.mem_cons_of_mem r h2)
      · intro r2 h2
        rcases List.mem_cons.mp h2 with h3 | h3
        · rw [h3]; omega
        · exact hall r2 h3

/-- The `argminAux` result is the seed, or strictly faster than it. -/
theorem argminAux_lt_of_ne (l : List Response) : ∀ m : Response,
    argminAux m l = m ∨ totalRTT (argminAux m l) < totalRTT m := by
  induction l with
  | nil => intro m; simp [argminAux]
  | cons r l ih =>
    intro m
    rw [argminAux_cons]
    by_cases h : totalRTT r < totalRTT m
    · simp only [h, if_true]
      rcases ih r with h2 | h2
      · right; rw [h2]; exact h
      · right; omega
    · simpa [h] using ih m

/-- Tie-break: every response strictly before the one `argminAux` picks is
strictly slower (so equal-cost responses keep the earlier pick). -/
theorem argminAux_first (l : List Response) : ∀ m : Response,
    ∃ l1 l2, m :: l = l1 ++ argminAux m l :: l2 ∧
      ∀ x ∈ l1, totalRTT (argminAux m l) < totalRTT x := by
  induction l with
  | nil => intro m; exact ⟨[], [], by simp [argminAux], by simp⟩
  | cons r l ih =>
    intro m
    rw [argminAux_cons]
    by_cases h : totalRTT r < totalRTT m
    · simp only [h, if_true]
      obtain ⟨l1, l2, heq, hall⟩ := ih r
      refine ⟨m :: l1, l2, by rw [List.cons_append, ← heq], ?_⟩
      intro x hx
      rcases List.mem_cons.mp hx with h2 | h2
      · have hle := (argminAux_min l r).2.1
        rw [h2]; omega
      · exact hall x h2
    · simp only [h, if_false]
      obtain ⟨l1, l2, heq, hall⟩ := ih m
      cases l1 with
      | nil =>
        simp only [List.nil_append, List.cons.injEq] at heq
        obtain ⟨h1, h2⟩ := heq
        refine ⟨[], r :: l2, ?_, by simp⟩
        rw [List.nil_append, ← h1, ← h2]
      | cons y l1t =>
        rw [List.cons_append] at heq
        simp only [List.cons.injEq] at heq
        obtain ⟨hy, htail⟩ := heq
        refine ⟨m :: r :: l1t, l2, ?_, ?_⟩
        · conv_lhs => rw [htail]
          simp
        intro x hx
        have hlt : totalRTT (argminAux m l) < totalRTT m := by
          have hz := hall y (List.mem_cons_self y l1t)
          rw [← hy] at hz
          exact hz
        rcases List.mem_cons.mp hx with h2 | h2
        · rw [h2]; omega
        · rcases List.mem_cons.mp h2 with h3 | h3
          · rw [h3]; omega
          · exact hall x (List.mem_cons_of_mem y h3)

/-! ## Claim C2: `DelegationCache.Get` -/

theorem dcGetLoop_step_some {c : DCacheL} {d : Dom} {offset : Nat} {b : List Server}
    (hl : alLookup c (d.drop offset) = some b) :
    dcGetLoop c d offset = (d.drop offset, b) := by
  rw [dcGetLoop]
  simp only [hl]

theorem dcGetLoop_step_none_false {c : DCacheL} {d : Dom} {offset o2 : Nat}
    (hl : alLookup c (d.drop offset) = none) (hnl : nextLabel d offset = (o2, false)) :
    dcGetLoop c d offset = dcGetLoop c d o2 := by
  rw [dcGetLoop]
  simp only [hl]
  split
  · rename_i o3 heq
    rw [hnl] at heq
    injection heq with h1 _
    rw [h1]
  · rename_i o3 heq
    rw [hnl] at heq
    injection heq with _ h2
    exact absurd h2.symm (by decide)

theorem dcGetLoop_step_none_true {c : DCacheL} {d : Dom} {offset o2 : Nat}
    (hl : alLookup c (d.drop offset) = none) (hnl : nextLabel d offset = (o2, true)) :
    dcGetLoop c d offset = (dstr ".", roots) := by
  rw [dcGetLoop]
  simp only [hl]
  split
  · rename_i o3 heq
    rw [hnl] at heq
    injection heq with _ h2
    exact absurd h2 (by decide)
  · rfl

theorem walkedOffsets_step_false {d : Dom} {offset o2 : Nat}
    (hnl : nextLabel d offset = (o2, false)) :
    walkedOffsets d offset = offset :: walkedOffsets d o2 := by
  rw [walkedOffsets]
  congr 1
  split
  · rename_i o3 heq
    rw [hnl] at heq
    injection heq with h1 _
    rw [h1]
  · rename_i o3 heq
    rw [hnl] at heq
    injection heq with _ h2
    exact absurd h2.symm (by decide)

theorem walkedOffsets_step_true {d : Dom} {offset o2 : Nat}
    (hnl : nextLabel d offset = (o2, true)) :
    walkedOffsets d offset = [offset] := by
  rw [walkedOffsets]
  congr 1
  split
  · rename_i o3 heq
    rw [hnl] at heq
    injection heq with _ h2
    exact absurd h2 (by decide)
  · rfl

theorem dcGetLoop_eq_find (c : DCacheL) (d : Dom) : ∀ k offset, d.length + 1 - offset ≤ k →
    dcGetLoop c d offset =
      (match ((walkedOffsets d offset).map (fun o => d.drop o)).find?
          (fun s => (alLookup c s).isSome) with
       | some s => (s, (alLookup c s).getD [])
       | none => (dstr ".", roots)) := by
  intro k
  induction k with
  | zero =>
    intro offset hk
    cases hl : alLookup c (d.drop offset) with
    | some b =>
      rw [dcGetLoop_step_some hl]
      cases hnl : nextLabel d offset with
      | mk o2 e =>
        cases e with
        | false =>
          have := nextLabel_bounds d offset (by rw [hnl])
          rw [hnl] at this
          simp only at this
          omega
        | true =>
          rw [walkedOffsets_step_true hnl, List.map_cons, List.map_nil,
            List.find?_cons_of_pos _ (by simp [hl])]
          simp [hl]
    | none =>
      cases hnl : nextLabel d offset with
      | mk o2 e =>
        cases e with
        | false =>
          have := nextLabel_bounds d offset (by rw [hnl])
          rw [hnl] at this
          simp only at this
          omega
        | true =>
          rw [dcGetLoop_step_none_true hl hnl, walkedOffsets_step_true hnl,
            List.map_cons, List.map_nil, List.find?_cons_of_neg _ (by simp [hl])]
          simp
  | succ k ih =>
    intro offset hk
    cases hl : alLookup c (d.drop offset) with
    | some b =>
      rw [dcGetLoop_step_some hl]
      cases hnl : nextLabel d offset with
      | mk o2 e =>
        cases e with
        | false =>
          rw [walkedOffsets_step_false hnl, List.map_cons,
            List.find?_cons_of_pos _ (by simp [hl])]
          simp [hl]
        | true =>
          rw [walkedOffsets_step_true hnl, List.map_cons, List.map_nil,
            List.find?_cons_of_pos _ (by simp [hl])]
          simp [hl]
    | none =>
      cases hnl : nextLabel d offset with
      | mk o2 e =>
        cases e with
        | false =>
          have hb := nextLabel_bounds d offset (by rw [hnl])
          rw [hnl] at hb
          simp only at hb
          rw [dcGetLoop_step_none_false hl hnl, walkedOffsets_step_false hnl,
            List.map_cons, List.find?_cons_of_neg _ (by simp [hl])]
          exact ih o2 (by omega)
        | true =>
          rw [dcGetLoop_step_none_true hl hnl, walkedOffsets_step_true hnl,
            List.map_cons, List.map_nil, List.find?_cons_of_neg _ (by simp [hl])]
          simp

theorem walkedOffsets_mem (d : Dom) : ∀ k offset, d.length + 1 - offset ≤ k →
    ∀ x ∈ walkedOffsets d offset, x = offset ∨ (offset < x ∧ x < d.length) := by
  intro k
  induction k with
  | zero =>
    intro offset hk x hx
    cases hnl : nextLabel d offset with
    | mk o2 e =>
      cases e with
      | false =>
        have := nextLabel_bounds d offset (by rw [hnl])
        rw [hnl] at this
        simp only at this
        omega
      | true =>
        rw [walkedOffsets_step_true hnl] at hx
        simp at hx
        exact Or.inl hx
  | succ k ih =>
    intro offset hk x hx
    cases hnl : nextLabel d offset with
    | mk o2 e =>
      cases e with
      | false =>
        have hb := nextLabel_bounds d offset (by rw [hnl])
        rw [hnl] at hb
        simp only at hb
        rw [walkedOffsets_step_false hnl] at hx
        rcases List.mem_cons.mp hx with h1 | h1
        · exact Or.inl h1
        · rcases ih o2 (by omega) x h1 with h2 | h2
          · right
            constructor
            · omega
            · rw [h2]; omega
          · right; omega
      | true =>
        rw [walkedOffsets_step_true hnl] at hx
        simp at hx
        exact Or.inl hx

theorem walkedSuffixes_pairwise_aux (d : Dom) : ∀ k offset, d.length + 1 - offset ≤ k →
    ((walkedOffsets d offset).map (fun o => d.drop o)).Pairwise
      (fun a b => b.length < a.length) := by
  intro k
  induction k with
  | zero =>
    intro offset hk
    cases hnl : nextLabel d offset with
    | mk o2 e =>
      cases e with
      | false =>
        have := nextLabel_bounds d offset (by rw [hnl])
        rw [hnl] at this
        simp only at this
        omega
      | true =>
        rw [walkedOffsets_step_true hnl]
        simp
  | succ k ih =>
    intro offset hk
    cases hnl : nextLabel d offset with
    | mk o2 e =>
      cases e with
      | false =>
        have hb := nextLabel_bounds d offset (by rw [hnl])
        rw [hnl] at hb
        simp only at hb
        rw [walkedOffsets_step_false hnl, List.map_cons, List.pairwise_cons]
        constructor
        · intro b hbm
          obtain ⟨x, hxm, rfl⟩ := List.mem_map.mp hbm
          have hx := walkedOffsets_mem d k o2 (by omega) x hxm
          rw [List.length_drop, List.length_drop]
          rcases hx with h1 | h1
          · rw [h1]; omega
          · omega
        · exact ih o2 (by omega)
      | true =>
        rw [walkedOffsets_step_true hnl]
        simp

/-- C2 (amended): `Get` lowercases the name and walks the suffix labels
that begin at the label starts of the name itself — the walk stops before
the root label `"."` (which is consulted only when the name is `"."`).
It returns the first — hence, the walked suffixes being strictly
decreasing in length, the longest — walked suffix cached in `D` with its
bucket, and `(".", the compiled-in roots)` when none is cached, even if
`D` has a bucket for `"."`. -/
theorem dcGet_spec (c : DCacheL) (n : Dom) :
    dcGet c n =
      (match (walkedSuffixes (toLower n)).find? (fun s => (alLookup c s).isSome) with
       | some s => (s, (alLookup c s).getD [])
       | none => (dstr ".", roots)) ∧
      (∀ s ∈ walkedSuffixes (toLower n), s.IsSuffix (toLower n)) ∧
      (walkedSuffixes (toLower n)).Pairwise (fun a b => b.length < a.length) := by
  refine ⟨?_, ?_, ?_⟩
  · rw [dcGet, walkedSuffixes]
    exact dcGetLoop_eq_find c (toLower n) ((toLower n).length + 1) 0 (by omega)
  · intro s hs
    rw [walkedSuffixes] at hs
    obtain ⟨o, _, rfl⟩ := List.mem_map.mp hs
    exact List.drop_suffix o (toLower n)
  · rw [walkedSuffixes]
    exact walkedSuffixes_pairwise_aux (toLower n) ((toLower n).length + 1) 0 (by omega)

/-- C2 counterexample: with the root label `"."` cached (its bucket below
holds one server), `Get` on `"example."` never consults it — the walk
stops before the root label — and returns the compiled-in roots instead of
the cached bucket, although `"."` is the longest cached suffix. -/
theorem dcGet_root_counterexample :
    dcGet [(dstr ".", [⟨dstr "x.example.", false, 7, [], 0, none⟩])] (dstr "example.") ≠
      (dstr ".", [⟨dstr "x.example.", false, 7, [], 0, none⟩]) := by
  have h0 : toLower (dstr "example.") = dstr "example." := by decide
  rw [dcGet, h0,
    @dcGetLoop_step_none_true _ _ 0 8 (by decide) (by decide)]
  decide

/-- The compiled-in root bucket has the 13 root servers. -/
theorem roots_length : roots.length = 13 := by decide

/-! ## Claim C3: Final versus CNAME in the answer scan -/

theorem answerScan_cons (qtype : Nat) (rr : RR) (rest : List RR) (st : ScanState) :
    answerScan qtype (rr :: rest) st =
      if domainEqual rr.hname st.qname && rr.rrtype == qtype then { st with rtype := .final }
      else
        match rr with
        | .cname nm _ tgt =>
          answerScan qtype rest { rtype := .cname, cname := nm, qname := tgt, zone := dstr "." }
        | _ => answerScan qtype rest st := rfl

theorem answerScan_final_of_match (qtype : Nat) (rr : RR) (post : List RR) :
    ∀ pre st, (∀ x ∈ pre, x.isCNAME = false) →
    (domainEqual rr.hname st.qname && rr.rrtype == qtype) = true →
    (answerScan qtype (pre ++ rr :: post) st).rtype = ResponseType.final := by
  intro pre
  induction pre with
  | nil =>
    intro st _ hmatch
    rw [List.nil_append, answerScan_cons, if_pos hmatch]
  | cons x pre ih =>
    intro st hpre hmatch
    rw [List.cons_append, answerScan_cons]
    by_cases hx : (domainEqual x.hname st.qname && x.rrtype == qtype) = true
    · rw [if_pos hx]
    · rw [if_neg hx]
      have hxc : x.isCNAME = false := hpre x (List.mem_cons_self x pre)
      have hrest : ∀ y ∈ pre, y.isCNAME = false :=
        fun y hy => hpre y (List.mem_cons_of_mem x hy)
      cases x with
      | cname nm ttl tgt => simp [RR.isCNAME] at hxc
      | ns nm ttl t => exact ih st hrest hmatch
      | a nm ttl ad => exact ih st hrest hmatch
      | aaaa nm ttl ad => exact ih st hrest hmatch
      | other nm ttl t => exact ih st hrest hmatch

/-- C3 (amended): a response whose answer section holds an RR owned by the
current `qname` (case-insensitive) with the question type is classified
Final **provided no CNAME record precedes that RR**: the scan returns
Final at the first direct hit, and any earlier CNAME instead rebinds
`qname` to its target, so a later record owned by the original `qname` no
longer matches and the response is classified CNAME. -/
theorem classify_final_of_match_before_cname (m : Msg) (qname zone : Dom) (qtype : Nat)
    (pre post : List RR) (rr : RR)
    (hsplit : m.answer = pre ++ rr :: post)
    (hmatch : (domainEqual rr.hname qname && rr.rrtype == qtype) = true)
    (hpre : ∀ x ∈ pre, x.isCNAME = false) :
    (classifyStep qtype m qname zone).rtype = ResponseType.final := by
  have hscan :
      (answerScan qtype m.answer ⟨.unknown, [], qname, zone⟩).rtype = ResponseType.final := by
    rw [hsplit]
    exact answerScan_final_of_match qtype rr post pre ⟨.unknown, [], qname, zone⟩ hpre hmatch
  rw [classifyStep]
  rw [if_neg (by rw [hscan]; exact fun h => ResponseType.noConfusion h)]
  exact hscan

/-- Witness for C3's amended theorem: the matching A record precedes the
CNAME, and the response is classified Final. -/
theorem classify_final_witness :
    ([RR.a (dstr "a.example.") 300 "192.0.2.7",
        RR.cname (dstr "a.example.") 300 (dstr "t.example.")] =
        [] ++ RR.a (dstr "a.example.") 300 "192.0.2.7" ::
          [RR.cname (dstr "a.example.") 300 (dstr "t.example.")]) ∧
      (classifyStep 1
          ⟨[⟨dstr "a.example.", 1⟩],
            [RR.a (dstr "a.example.") 300 "192.0.2.7",
              RR.cname (dstr "a.example.") 300 (dstr "t.example.")], [], []⟩
          (dstr "a.example.") (dstr ".")).rtype = ResponseType.final :=
  ⟨by decide,
    classify_final_of_match_before_cname
      ⟨[⟨dstr "a.example.", 1⟩],
        [RR.a (dstr "a.example.") 300 "192.0.2.7",
          RR.cname (dstr "a.example.") 300 (dstr "t.example.")], [], []⟩
      (dstr "a.example.") (dstr ".") 1 []
      [RR.cname (dstr "a.example.") 300 (dstr "t.example.")]
      (RR.a (dstr "a.example.") 300 "192.0.2.7")
      (by decide) (by decide) (by decide)⟩

/-- C3 counterexample: the same two records with the CNAME first — a CNAME
owned by `qname` followed by an A record owned by `qname` of the question
type — are classified CNAME, not Final: order does matter, because the
CNAME rebinds `qname` before the A record is inspected. -/
theorem classify_order_counterexample :
    (classifyStep 1
        ⟨[⟨dstr "a.example.", 1⟩],
          [RR.cname (dstr "a.example.") 300 (dstr "t.example."),
            RR.a (dstr "a.example.") 300 "192.0.2.7"], [], []⟩
        (dstr "a.example.") (dstr ".")).rtype ≠ ResponseType.final ∧
      (classifyStep 1
          ⟨[⟨dstr "a.example.", 1⟩],
            [RR.cname (dstr "a.example.") 300 (dstr "t.example."),
              RR.a (dstr "a.example.") 300 "192.0.2.7"], [], []⟩
          (dstr "a.example.") (dstr ".")).rtype = ResponseType.cname := by
  constructor
  · decide
  · decide

/-! ## Claim C4: delegation insertion under each tracer configuration -/

theorem domainEqual_refl (d : Dom) : domainEqual d d = true := by
  rw [domainEqual_iff]

theorem hasServerNamed_dcAdd_self (d : DCacheL) (owner : Dom) (s : Server) :
    hasServerNamed (dcAdd d owner s).1 owner s.name = true := by
  rw [dcAdd, hasServerNamed]
  by_cases hany :
      ((alLookup d (toLower owner)).getD []).any (fun t => domainEqual t.name s.name) = true
  · simpa [hany] using hany
  · simp only [hany, Bool.false_eq_true, if_false]
    rw [alLookup_alUpdate_self]
    simp [domainEqual_refl]

theorem hasServerNamed_dcAdd_mono (d : DCacheL) (o2 : Dom) (s : Server)
    {owner srv : Dom} (h : hasServerNamed d owner srv = true) :
    hasServerNamed (dcAdd d o2 s).1 owner srv = true := by
  rw [dcAdd]
  by_cases hany :
      ((alLookup d (toLower o2)).getD []).any (fun t => domainEqual t.name s.name) = true
  · simpa [hany]
  · simp only [hany, Bool.false_eq_true, if_false]
    rw [hasServerNamed] at h ⊢
    by_cases hk : toLower o2 = toLower owner
    · rw [← hk] at h
      rw [← hk, alLookup_alUpdate_self]
      rw [List.any_eq_true] at h ⊢
      obtain ⟨t, ht, hdt⟩ := h
      exact ⟨t, List.mem_append_left _ ht, hdt⟩
    · rw [alLookup_alUpdate_ne _ _ _ _ hk]
      exact h

theorem hasServerNamed_processDelegation_mono (extra : List RR) (tr : Bool) :
    ∀ (l : List RR) (cs : Caches) {owner srv : Dom},
    hasServerNamed cs.d owner srv = true →
    hasServerNamed (processDelegation extra tr l cs).d owner srv = true := by
  intro l
  induction l with
  | nil => intro cs _ _ h; exact h
  | cons rr rest ih =>
    intro cs owner srv h
    cases rr with
    | ns name ttl tgt =>
      have h2 := hasServerNamed_dcAdd_mono cs.d name
        ⟨tgt, !(glueAddrs extra tgt).isEmpty, ttl, glueAddrs extra tgt, 0, none⟩ h
      cases tr with
      | true =>
        exact ih ⟨(dcAdd cs.d name
          ⟨tgt, !(glueAddrs extra tgt).isEmpty, ttl, glueAddrs extra tgt, 0, none⟩).1,
          lcSet cs.l tgt (glueAddrs extra tgt)⟩ h2
      | false => exact h2
    | cname nm ttl tgt => exact ih cs h
    | a nm ttl ad => exact ih cs h
    | aaaa nm ttl ad => exact ih cs h
    | other nm ttl t => exact ih cs h

/-- C4 (amended): in a Delegation iteration, when the tracer's
`GotIntermediaryResponse` callback is set, every NS record of the
authority section (DS and other non-NS records skipped) ends up in the
delegation cache under its owner name; when the callback is nil the loop
breaks after the first NS record, so only the first NS record (the one
preceded by no other NS) is guaranteed inserted. -/
theorem processDelegation_inserts (authority extra : List RR) (cs : Caches) :
    (∀ rr ∈ authority, ∀ name ttl tgt, rr = RR.ns name ttl tgt →
      hasServerNamed (processDelegation extra true authority cs).d name tgt = true) ∧
    (∀ (pre rest : List RR) (name : Dom) (ttl : Nat) (tgt : Dom),
      authority = pre ++ RR.ns name ttl tgt :: rest → (∀ x ∈ pre, x.isNS = false) →
      hasServerNamed (processDelegation extra false authority cs).d name tgt = true) := by
  constructor
  · induction authority generalizing cs with
    | nil => intro rr h; exact absurd h (List.not_mem_nil rr)
    | cons x rest ih =>
      intro rr hmem name ttl tgt hrr
      cases x with
      | ns n t g =>
        rcases List.mem_cons.mp hmem with h1 | h1
        · rw [hrr] at h1
          injection h1 with e1 e2 e3
          rw [e1, e3]
          exact hasServerNamed_processDelegation_mono extra true rest
            ⟨(dcAdd cs.d n
              ⟨g, !(glueAddrs extra g).isEmpty, t, glueAddrs extra g, 0, none⟩).1,
              lcSet cs.l g (glueAddrs extra g)⟩
            (hasServerNamed_dcAdd_self cs.d n
              ⟨g, !(glueAddrs extra g).isEmpty, t, glueAddrs extra g, 0, none⟩)
        · exact ih
            ⟨(dcAdd cs.d n
              ⟨g, !(glueAddrs extra g).isEmpty, t, glueAddrs extra g, 0, none⟩).1,
              lcSet cs.l g (glueAddrs extra g)⟩ rr h1 name ttl tgt hrr
      | cname nm t tg =>
        rcases List.mem_cons.mp hmem with h1 | h1
        · rw [hrr] at h1; exact RR.noConfusion h1
        · exact ih cs rr h1 name ttl tgt hrr
      | a nm t ad =>
        rcases List.mem_cons.mp hmem with h1 | h1
        · rw [hrr] at h1; exact RR.noConfusion h1
        · exact ih cs rr h1 name ttl tgt hrr
      | aaaa nm t ad =>
        rcases List.mem_cons.mp hmem with h1 | h1
        · rw [hrr] at h1; exact RR.noConfusion h1
        · exact ih cs rr h1 name ttl tgt hrr
      | other nm t ty =>
        rcases List.mem_cons.mp hmem with h1 | h1
        · rw [hrr] at h1; exact RR.noConfusion h1
        · exact ih cs rr h1 name ttl tgt hrr
  · intro pre
    induction pre generalizing authority cs with
    | nil =>
      intro rest name ttl tgt heq _
      subst heq
      rw [List.nil_append]
      exact hasServerNamed_dcAdd_self cs.d name
        ⟨tgt, !(glueAddrs extra tgt).isEmpty, ttl, glueAddrs extra tgt, 0, none⟩
    | cons x pre ih =>
      intro rest name ttl tgt heq hpre
      subst heq
      have hx : x.isNS = false := hpre x (List.mem_cons_self x pre)
      have hrest : ∀ y ∈ pre, y.isNS = false :=
        fun y hy => hpre y (List.mem_cons_of_mem x hy)
      cases x with
      | ns n t g => simp [RR.isNS] at hx
      | cname nm t tg =>
        exact ih (pre ++ RR.ns name ttl tgt :: rest) cs rest name ttl tgt rfl hrest
      | a nm t ad =>
        exact ih (pre ++ RR.ns name ttl tgt :: rest) cs rest name ttl tgt rfl hrest
      | aaaa nm t ad =>
        exact ih (pre ++ RR.ns name ttl tgt :: rest) cs rest name ttl tgt rfl hrest
      | other nm t ty =>
        exact ih (pre ++ RR.ns name ttl tgt :: rest) cs rest name ttl tgt rfl hrest

/-- C4 counterexample: with the tracer absent the loop breaks after the
first NS, so the second NS record of a delegation response is not
inserted — the claim's "for every tracer configuration" fails (with the
tracer set, the same authority section does get both inserted). -/
theorem processDelegation_untraced_counterexample :
    hasServerNamed
        (processDelegation [] false
          [RR.ns (dstr "com.") 60 (dstr "ns1.x."), RR.ns (dstr "com.") 60 (dstr "ns2.y.")]
          ⟨[], []⟩).d
        (dstr "com.") (dstr "ns2.y.") = false ∧
      hasServerNamed
          (processDelegation [] true
            [RR.ns (dstr "com.") 60 (dstr "ns1.x."), RR.ns (dstr "com.") 60 (dstr "ns2.y.")]
            ⟨[], []⟩).d
          (dstr "com.") (dstr "ns2.y.") = true := by
  constructor
  · decide
  · decide

/-! ## Claim C6: CNAME resets the zone; Delegation needs a longer NS owner -/

theorem answerScan_cname_zone (qtype : Nat) : ∀ (l : List RR) (st : ScanState),
    (answerScan qtype l st).rtype = ResponseType.cname →
    (answerScan qtype l st).zone = dstr "." ∨ answerScan qtype l st = st := by
  intro l
  induction l with
  | nil => intro st _; exact Or.inr rfl
  | cons rr rest ih =>
    intro st h
    rw [answerScan_cons] at h ⊢
    by_cases hc : (domainEqual rr.hname st.qname && rr.rrtype == qtype) = true
    · rw [if_pos hc] at h
      exact absurd h (by intro hh; cases hh)
    · rw [if_neg hc] at h ⊢
      cases rr with
      | cname nm ttl tgt =>
        dsimp only at h ⊢
        rcases ih _ h with h2 | h2
        · exact Or.inl h2
        · rw [h2]
          exact Or.inl rfl
      | ns nm ttl t => exact ih st h
      | a nm ttl ad => exact ih st h
      | aaaa nm ttl ad => exact ih st h
      | other nm ttl t => exact ih st h

theorem answerScan_unknown_eq (qtype : Nat) : ∀ (l : List RR) (st : ScanState),
    (answerScan qtype l st).rtype = ResponseType.unknown →
    answerScan qtype l st = st := by
  intro l
  induction l with
  | nil => intro st _; rfl
  | cons rr rest ih =>
    intro st h
    rw [answerScan_cons] at h ⊢
    by_cases hc : (domainEqual rr.hname st.qname && rr.rrtype == qtype) = true
    · rw [if_pos hc] at h
      exact absurd h (by intro hh; cases hh)
    · rw [if_neg hc] at h ⊢
      cases rr with
      | cname nm ttl tgt =>
        dsimp only at h ⊢
        have h2 := ih _ h
        rw [h2] at h
        simp at h
      | ns nm ttl t => exact ih st h
      | a nm ttl ad => exact ih st h
      | aaaa nm ttl ad => exact ih st h
      | other nm ttl t => exact ih st h

theorem answerScan_ne_delegation (qtype : Nat) : ∀ (l : List RR) (st : ScanState),
    st.rtype ≠ ResponseType.delegation →
    (answerScan qtype l st).rtype ≠ ResponseType.delegation := by
  intro l
  induction l with
  | nil => intro st h; exact h
  | cons rr rest ih =>
    intro st h
    rw [answerScan_cons]
    by_cases hc : (domainEqual rr.hname st.qname && rr.rrtype == qtype) = true
    · rw [if_pos hc]
      intro hh
      cases hh
    · rw [if_neg hc]
      cases rr with
      | cname nm ttl tgt => exact ih _ (by intro hh; cases hh)
      | ns nm ttl t => exact ih st h
      | a nm ttl ad => exact ih st h
      | aaaa nm ttl ad => exact ih st h
      | other nm ttl t => exact ih st h

theorem nsScan_spec (zone : Dom) : ∀ (l : List RR) (nm : Dom),
    nsScan zone l = some nm →
    ∃ ttl tgt, RR.ns nm ttl tgt ∈ l ∧ zone.length < nm.length := by
  intro l
  induction l with
  | nil => intro nm h; exact absurd h (by simp [nsScan])
  | cons rr rest ih =>
    intro nm h
    cases rr with
    | ns n ttl t =>
      rw [nsScan] at h
      by_cases hlen : zone.length < n.length
      · rw [if_pos hlen] at h
        injection h with h2
        subst h2
        exact ⟨ttl, t, List.mem_cons_self _ _, hlen⟩
      · rw [if_neg hlen] at h
        obtain ⟨t2, g2, hm, hl⟩ := ih nm h
        exact ⟨t2, g2, List.mem_cons_of_mem _ hm, hl⟩
    | cname n ttl t =>
      obtain ⟨t2, g2, hm, hl⟩ := ih nm h
      exact ⟨t2, g2, List.mem_cons_of_mem _ hm, hl⟩
    | a n ttl ad =>
      obtain ⟨t2, g2, hm, hl⟩ := ih nm h
      exact ⟨t2, g2, List.mem_cons_of_mem _ hm, hl⟩
    | aaaa n ttl ad =>
      obtain ⟨t2, g2, hm, hl⟩ := ih nm h
      exact ⟨t2, g2, List.mem_cons_of_mem _ hm, hl⟩
    | other n ttl ty =>
      obtain ⟨t2, g2, hm, hl⟩ := ih nm h
      exact ⟨t2, g2, List.mem_cons_of_mem _ hm, hl⟩

/-- C6: on every response classification, (a) a CNAME classification leaves
the zone variable reset to `"."` for the next iteration, and (b) a
Delegation classification happens only when the authority section holds an
NS record whose owner is strictly longer (in bytes) than the current zone;
that owner becomes the new zone. -/
theorem classify_zone_invariants (qtype : Nat) (r : Msg) (qname zone : Dom) :
    ((classifyStep qtype r qname zone).rtype = ResponseType.cname →
      (classifyStep qtype r qname zone).zone = dstr ".") ∧
    ((classifyStep qtype r qname zone).rtype = ResponseType.delegation →
      ∃ name ttl tgt, RR.ns name ttl tgt ∈ r.ns ∧ zone.length < name.length ∧
        (classifyStep qtype r qname zone).zone = name) := by
  constructor
  · intro h
    rw [classifyStep] at h ⊢
    by_cases hu :
        (answerScan qtype r.answer ⟨.unknown, [], qname, zone⟩).rtype = ResponseType.unknown
    · rw [if_pos hu] at h ⊢
      cases hns : nsScan (answerScan qtype r.answer ⟨.unknown, [], qname, zone⟩).zone r.ns with
      | some nm => rw [hns] at h; exact absurd h (by intro hh; cases hh)
      | none => rw [hns] at h; exact absurd h (by intro hh; cases hh)
    · rw [if_neg hu] at h ⊢
      rcases answerScan_cname_zone qtype r.answer ⟨.unknown, [], qname, zone⟩ h with h2 | h2
      · exact h2
      · rw [h2] at h
        exact absurd h (by intro hh; cases hh)
  · intro h
    rw [classifyStep] at h ⊢
    by_cases hu :
        (answerScan qtype r.answer ⟨.unknown, [], qname, zone⟩).rtype = ResponseType.unknown
    · rw [if_pos hu] at h ⊢
      have heq := answerScan_unknown_eq qtype r.answer ⟨.unknown, [], qname, zone⟩ hu
      cases hns : nsScan (answerScan qtype r.answer ⟨.unknown, [], qname, zone⟩).zone r.ns with
      | some nm =>
        rw [heq] at hns
        obtain ⟨ttl, tgt, hm, hl⟩ := nsScan_spec zone r.ns nm hns
        exact ⟨nm, ttl, tgt, hm, hl, rfl⟩
      | none =>
        rw [hns] at h
        simp at h
    · rw [if_neg hu] at h
      exact absurd h (answerScan_ne_delegation qtype r.answer ⟨.unknown, [], qname, zone⟩
        (by intro hh; cases hh))

/-! ## Claims C7 and C8: the driver's failure and budget-exhaustion paths -/

/-- C7: in a driver iteration whose `Fastest` pointer carries no message
(the code's `r == nil` test — no error-free response with a message), the
driver returns at once: with no responses collected, a nil message and the
"no response" error; otherwise the first collected response's message
(which may itself be nil), the accumulated RTT plus that response's RTT,
and that response's error. -/
theorem driver_no_success (qtype : Nat) (traced : Bool) (env : Nat → List Response)
    (g z : Nat) (st : DriverState)
    (hmsg : (fastestFold (env z)).msg = none) :
    (env z = [] →
      driverLoop qtype traced env (g + 1) z st = (none, st.rtt, some "no response")) ∧
    (∀ r0 rs, env z = r0 :: rs →
      driverLoop qtype traced env (g + 1) z st = (r0.msg, st.rtt + r0.rtt, r0.err)) := by
  constructor
  · intro he
    have hstep : driverStep qtype traced env z st = .ret none st.rtt (some "no response") := by
      have hmsg2 := hmsg
      rw [he] at hmsg2
      rw [driverStep]
      simp only [he, hmsg2]
    rw [driverLoop, hstep]
  · intro r0 rs he
    have hstep : driverStep qtype traced env z st = .ret r0.msg (st.rtt + r0.rtt) r0.err := by
      have hmsg2 := hmsg
      rw [he] at hmsg2
      rw [driverStep]
      simp only [he, hmsg2]
    rw [driverLoop, hstep]

/-- Witness for C7 at a concrete iteration: the only response errored, so
its message and error are surfaced with the accumulated RTT. -/
theorem driver_no_success_witness :
    (fastestFold ((fun _ => [(⟨zeroServer, "a", none, 5, some "i/o timeout"⟩ : Response)]) 1)).msg
        = none ∧
      driverLoop 1 false (fun _ => [(⟨zeroServer, "a", none, 5, some "i/o timeout"⟩ : Response)])
          3 1 ⟨dstr "x.", dstr ".", 0, ⟨[], []⟩⟩ =
        (none, 0 + 5, some "i/o timeout") :=
  ⟨by decide,
    (driver_no_success 1 false (fun _ => [⟨zeroServer, "a", none, 5, some "i/o timeout"⟩])
      2 1 ⟨dstr "x.", dstr ".", 0, ⟨[], []⟩⟩ (by decide)).2
      ⟨zeroServer, "a", none, 5, some "i/o timeout"⟩ [] rfl⟩

/-- C8: when all three driver iterations pass their budget without
returning (each classified CNAME or Delegation, hence `driverStep` yields
`next`), `RecursiveQuery` returns a nil message, the RTT accumulated in
the final state, and a nil error. -/
theorem driver_budget_exhausted (qname : Dom) (qtype : Nat) (traced : Bool)
    (env : Nat → List Response) (cs : Caches) (st2 st3 st4 : DriverState)
    (h1 : driverStep qtype traced env 1 ⟨qname, dstr ".", 0, cs⟩ = .next st2)
    (h2 : driverStep qtype traced env 2 st2 = .next st3)
    (h3 : driverStep qtype traced env 3 st3 = .next st4) :
    recursiveQueryModel qname qtype traced env cs = (none, st4.rtt, none) := by
  rw [recursiveQueryModel]
  show driverLoop qtype traced env (2 + 1) 1 ⟨qname, dstr ".", 0, cs⟩ = (none, st4.rtt, none)
  rw [driverLoop, h1]
  show driverLoop qtype traced env (1 + 1) 2 st2 = (none, st4.rtt, none)
  rw [driverLoop, h2]
  show driverLoop qtype traced env (0 + 1) 3 st3 = (none, st4.rtt, none)
  rw [driverLoop, h3]
  rfl

/-- Witness for C8: an environment whose every response is an unmatched
CNAME makes all three iterations continue; the run returns a nil message,
the three accumulated response RTTs, and a nil error. -/
theorem driver_budget_exhausted_witness :
    driverStep 1 false
        (fun _ => [(⟨zeroServer, "ip",
          some ⟨[], [RR.cname (dstr "q.") 60 (dstr "q.")], [], []⟩, 3, none⟩ : Response)])
        1 ⟨dstr "a.", dstr ".", 0, ⟨[], []⟩⟩ =
      .next ⟨dstr "q.", dstr ".", 3, ⟨[], []⟩⟩ ∧
    driverStep 1 false
        (fun _ => [(⟨zeroServer, "ip",
          some ⟨[], [RR.cname (dstr "q.") 60 (dstr "q.")], [], []⟩, 3, none⟩ : Response)])
        2 ⟨dstr "q.", dstr ".", 3, ⟨[], []⟩⟩ =
      .next ⟨dstr "q.", dstr ".", 6, ⟨[], []⟩⟩ ∧
    driverStep 1 false
        (fun _ => [(⟨zeroServer, "ip",
          some ⟨[], [RR.cname (dstr "q.") 60 (dstr "q.")], [], []⟩, 3, none⟩ : Response)])
        3 ⟨dstr "q.", dstr ".", 6, ⟨[], []⟩⟩ =
      .next ⟨dstr "q.", dstr ".", 9, ⟨[], []⟩⟩ ∧
    recursiveQueryModel (dstr "a.") 1 false
        (fun _ => [(⟨zeroServer, "ip",
          some ⟨[], [RR.cname (dstr "q.") 60 (dstr "q.")], [], []⟩, 3, none⟩ : Response)])
        ⟨[], []⟩ =
      (none, 9, none) :=
  ⟨by decide, by decide, by decide,
    driver_budget_exhausted (dstr "a.") 1 false
      (fun _ => [⟨zeroServer, "ip",
        some ⟨[], [RR.cname (dstr "q.") 60 (dstr "q.")], [], []⟩, 3, none⟩])
      ⟨[], []⟩
      ⟨dstr "q.", dstr ".", 3, ⟨[], []⟩⟩
      ⟨dstr "q.", dstr ".", 6, ⟨[], []⟩⟩
      ⟨dstr "q.", dstr ".", 9, ⟨[], []⟩⟩
      (by decide) (by decide) (by decide)⟩

/-! ## Claim C5: the retry ceiling on nested resolutions -/

theorem lcGetAA_toLower_eq {q h : Dom} (c : LCacheL) (hql : toLower q = toLower h) :
    lcGetAA c q = lcGetAA c h := by
  rw [lcGetAA, lcGetAA, hql]

theorem lcGetAA_alUpdate_same {q h : Dom} (c : LCacheL) (v : AddressAttempt)
    (hql : toLower q = toLower h) : lcGetAA (alUpdate c (toLower q) v) h = v := by
  rw [lcGetAA, ← hql, alLookup_alUpdate_self]
  rfl

theorem lcGetAA_alUpdate_ne {q h : Dom} (c : LCacheL) (v : AddressAttempt)
    (hql : toLower q ≠ toLower h) : lcGetAA (alUpdate c (toLower q) v) h = lcGetAA c h := by
  rw [lcGetAA, alLookup_alUpdate_ne _ _ _ _ hql, lcGetAA]

theorem lcIncAttempt_of_empty {c : LCacheL} {q : Dom}
    (hempty : (lcGetAA c q).addresss = []) :
    lcIncAttempt c q =
      alUpdate c (toLower q) ⟨[], ((lcGetAA c q).retryCount + 1) % 256⟩ := by
  simp only [lcIncAttempt, lcGetAA] at hempty ⊢
  rw [if_pos hempty, hempty]

theorem lcGetAA_eta (c : LCacheL) (q : Dom) :
    lcGetAA c q = ⟨(lcGetAA c q).addresss, (lcGetAA c q).retryCount⟩ := rfl

theorem lcSet_empty_of_empty {c : LCacheL} {q : Dom}
    (hempty : (lcGetAA c q).addresss = []) :
    lcSet c q [] = alUpdate c (toLower q) ⟨[], ((lcGetAA c q).retryCount + 1) % 256⟩ := by
  simp only [lcSet, lcGetAA] at hempty ⊢
  simp only [if_true]
  rw [if_pos hempty, hempty]

theorem lcSet_nonempty (c : LCacheL) (q : Dom) (a : String) (as : List String) :
    lcSet c q (a :: as) = alUpdate c (toLower q) ⟨a :: as, 1⟩ := by
  simp only [lcSet]
  rw [if_neg (by simp)]

theorem lookupHostStep_budget (maxRetry : Nat) (hmax : maxRetry ≤ 253) (h : Dom)
    (c : LCacheL) (q : Dom) (o : Option (List String)) :
    (if q = h then (lookupHostStep maxRetry c q o).2 else 0) +
        retryBudget maxRetry (lcGetAA (lookupHostStep maxRetry c q o).1 h) ≤
      retryBudget maxRetry (lcGetAA c h) := by
  rw [lookupHostStep]
  by_cases hgate :
      (!(lcGetAA c q).addresss.isEmpty || decide (maxRetry < (lcGetAA c q).retryCount)) = true
  · simp only [hgate, if_true]
    split <;> simp
  · simp only [hgate, Bool.false_eq_true, if_false]
    rw [Bool.or_eq_true] at hgate
    push_neg at hgate
    obtain ⟨hg1, hg2⟩ := hgate
    have hempty : (lcGetAA c q).addresss = [] := by
      rcases hadr : (lcGetAA c q).addresss with _ | ⟨a, as⟩
      · rfl
      · rw [hadr] at hg1
        simp at hg1
    have hretry : (lcGetAA c q).retryCount ≤ maxRetry := by
      rcases Nat.lt_or_ge maxRetry (lcGetAA c q).retryCount with hlt | hle
      · exact absurd (by simp [hlt]) hg2
      · exact hle
    have hmod1 : ((lcGetAA c q).retryCount + 1) % 256 = (lcGetAA c q).retryCount + 1 :=
      Nat.mod_eq_of_lt (by omega)
    have hinc := lcIncAttempt_of_empty hempty
    by_cases hql : toLower q = toLower h
    · -- same cache bucket: the pass spends no more than the budget decrease
      have hbefore : retryBudget maxRetry (lcGetAA c h) =
          2 * (maxRetry + 1 - (lcGetAA c q).retryCount) := by
        rw [← lcGetAA_toLower_eq c hql, lcGetAA_eta c q, hempty, retryBudget]
        rfl
      have hgetinc : lcGetAA (lcIncAttempt c q) h =
          ⟨[], (lcGetAA c q).retryCount + 1⟩ := by
        rw [hinc, lcGetAA_alUpdate_same c _ hql, hmod1]
      cases o with
      | none =>
        simp only
        rw [hgetinc, hbefore, retryBudget]
        simp only [List.isEmpty_nil, if_true]
        split <;> omega
      | some addrs =>
        simp only
        rcases haddrs : addrs with _ | ⟨a, as⟩
        · -- empty result: Set bumps the counter a second time
          have hgetincq : lcGetAA (lcIncAttempt c q) q =
              ⟨[], (lcGetAA c q).retryCount + 1⟩ := by
            rw [hinc, lcGetAA_alUpdate_same c _ rfl, hmod1]
          have hset := @lcSet_empty_of_empty (lcIncAttempt c q) q (by rw [hgetincq])
          rw [hgetincq] at hset
          simp only at hset
          have hmod2 : ((lcGetAA c q).retryCount + 1 + 1) % 256 =
              (lcGetAA c q).retryCount + 2 :=
            Nat.mod_eq_of_lt (by omega)
          rw [hset, hmod2, lcGetAA_alUpdate_same _ _ hql, hbefore, retryBudget]
          simp only [List.isEmpty_nil, if_true]
          split <;> omega
        · -- non-empty result: addresses cached, remaining budget zero
          rw [lcSet_nonempty, lcGetAA_alUpdate_same _ _ hql, hbefore, retryBudget]
          simp only [List.isEmpty_cons, Bool.false_eq_true, if_false]
          split <;> omega
    · -- different bucket: the entry for `h` is untouched, and `q ≠ h`
      have hqh : q ≠ h := fun he => hql (he ▸ rfl)
      simp only [hqh, if_false]
      have huntouched : lcGetAA (lcIncAttempt c q) h = lcGetAA c h := by
        rw [hinc, lcGetAA_alUpdate_ne c _ hql]
      cases o with
      | none =>
        simp only
        rw [huntouched]
        omega
      | some addrs =>
        simp only
        rcases haddrs : addrs with _ | ⟨a, as⟩
        · have hgetincq : lcGetAA (lcIncAttempt c q) q =
              ⟨[], (lcGetAA c q).retryCount + 1⟩ := by
            rw [hinc, lcGetAA_alUpdate_same c _ rfl, hmod1]
          have hset := @lcSet_empty_of_empty (lcIncAttempt c q) q (by rw [hgetincq])
          rw [hset, lcGetAA_alUpdate_ne _ _ hql, huntouched]
          omega
        · rw [lcSet_nonempty, lcGetAA_alUpdate_ne _ _ hql, huntouched]
          omega

theorem runLookups_budget (maxRetry : Nat) (hmax : maxRetry ≤ 253) (h : Dom) :
    ∀ (evs : List (Dom × Option (List String))) (c : LCacheL),
    (runLookups maxRetry h evs c).2 ≤ retryBudget maxRetry (lcGetAA c h) := by
  intro evs
  induction evs with
  | nil => intro c; simp [runLookups]
  | cons ev evs ih =>
    intro c
    obtain ⟨q, o⟩ := ev
    rw [runLookups]
    have hstep := lookupHostStep_budget maxRetry hmax h c q o
    have hrest := ih (lookupHostStep maxRetry c q o).1
    simp only
    omega

/-- C5 (amended): for each hostname `h`, over any serialised sequence of
`lookupHost` invocations starting from the empty lookup cache, the number
of `RecursiveQuery` entries with question name `h` and type A or AAAA is
at most `2 × (maxRetry + 1)` (not `2 × maxRetry`: the gate lets retry
counts `0 … maxRetry` through, and an errored pass bumps the counter only once),
for any retry ceiling below the `uint8` wrap-around. -/
theorem lookupHost_retry_bound (maxRetry : Nat) (hmax : maxRetry ≤ 253) (h : Dom)
    (evs : List (Dom × Option (List String))) :
    (runLookups maxRetry h evs []).2 ≤ 2 * (maxRetry + 1) := by
  have hb := runLookups_budget maxRetry hmax h evs []
  have hz : retryBudget maxRetry (lcGetAA [] h) = 2 * (maxRetry + 1) := by
    rw [lcGetAA, retryBudget]
    simp [alLookup]
  omega

/-- Witness for C5's amended theorem: with the program's ceiling of 10, two
failing passes for the same hostname make four entries, within the bound
of 22. -/
theorem lookupHost_retry_bound_witness :
    (10 : Nat) ≤ 253 ∧
      (runLookups 10 (dstr "ns1.x.") [(dstr "ns1.x.", none), (dstr "ns1.x.", none)] []).2 ≤
        2 * (10 + 1) :=
  ⟨by decide,
    lookupHost_retry_bound 10 (by decide) (dstr "ns1.x.")
      [(dstr "ns1.x.", none), (dstr "ns1.x.", none)]⟩

/-- C5 counterexample: with `maxRetry = 1`, two failing `lookupHost`
passes for the same hostname both clear the gate (retry counts 0 and 1,
each errored pass bumping the counter once), making 4 `RecursiveQuery`
entries — more than `2 × maxRetry = 2`. -/
theorem lookupHost_retry_counterexample :
    (runLookups 1 (dstr "ns1.x.") [(dstr "ns1.x.", none), (dstr "ns1.x.", none)] []).2 = 4 ∧
      ¬ (runLookups 1 (dstr "ns1.x.") [(dstr "ns1.x.", none), (dstr "ns1.x.", none)] []).2 ≤
          2 * 1 := by
  constructor
  · decide
  · decide

/-! ## Claim C10: `RecursiveQuery` never mutates the caller's message -/

theorem storeCopy_fst_length (st : Store) (r : Nat) :
    (storeCopy st r).1.length = st.length + 1 := by
  simp [storeCopy]

theorem storeCopy_snd (st : Store) (r : Nat) : (storeCopy st r).2 = st.length := rfl

theorem storeCopy_fst_getElem (st : Store) (r i : Nat) (h : i < st.length) :
    (storeCopy st r).1[i]? = st[i]? :=
  List.getElem?_append_left h

theorem storeSetQName_length (st : Store) (r : Nat) (qn : Dom) :
    (storeSetQName st r qn).length = st.length :=
  List.length_set st r _

theorem storeSetQName_getElem_ne (st : Store) (r : Nat) (qn : Dom) (i : Nat)
    (h : i ≠ r) : (storeSetQName st r qn)[i]? = st[i]? :=
  List.getElem?_set_ne (Ne.symm h)

theorem storeSetQType_length (st : Store) (r qt : Nat) :
    (storeSetQType st r qt).length = st.length :=
  List.length_set st r _

theorem storeSetQType_getElem_ne (st : Store) (r qt i : Nat)
    (h : i ≠ r) : (storeSetQType st r qt)[i]? = st[i]? :=
  List.getElem?_set_ne (Ne.symm h)

theorem storeSetQuestion_length (st : Store) (r : Nat) (n : Dom) (qt : Nat) :
    (storeSetQuestion st r n qt).length = st.length :=
  List.length_set st r _

theorem storeSetQuestion_getElem_ne (st : Store) (r : Nat) (n : Dom) (qt i : Nat)
    (h : i ≠ r) : (storeSetQuestion st r n qt)[i]? = st[i]? :=
  List.getElem?_set_ne (Ne.symm h)

theorem storeParallelCopies_length (r : Nat) :
    ∀ (n : Nat) (st : Store), st.length ≤ (storeParallelCopies st r n).length := by
  intro n
  induction n with
  | zero => intro st; exact le_refl _
  | succ k ih =>
    intro st
    rw [storeParallelCopies]
    exact le_trans (by rw [storeCopy_fst_length]; omega) (ih (storeCopy st r).1)

theorem storeParallelCopies_getElem (r : Nat) :
    ∀ (n : Nat) (st : Store) (i : Nat), i < st.length →
    (storeParallelCopies st r n)[i]? = st[i]? := by
  intro n
  induction n with
  | zero => intro st i _; rfl
  | succ k ih =>
    intro st i hi
    rw [storeParallelCopies,
      ih (storeCopy st r).1 i (by rw [storeCopy_fst_length]; omega)]
    exact storeCopy_fst_getElem st r i hi

theorem storeFrame_all : ∀ fuel : Nat,
    (∀ (env : REnv) (path : List Nat) (st : Store) (mref : Nat) (traced : Bool),
      st.length ≤ (storeRecQuery env path fuel st mref traced).length ∧
      ∀ i, i < st.length → (storeRecQuery env path fuel st mref traced)[i]? = st[i]?) ∧
    (∀ (env : REnv) (path : List Nat) (st : Store) (mref qtype : Nat) (traced : Bool)
      (qname zone : Dom) (z : Nat),
      st.length ≤ (storeDriverLoop env path fuel st mref qtype traced qname zone z).length ∧
      ∀ i, i < st.length → i ≠ mref →
        (storeDriverLoop env path fuel st mref qtype traced qname zone z)[i]? = st[i]?) ∧
    (∀ (env : REnv) (path : List Nat) (st : Store) (mref z : Nat) (names : List Dom),
      st.length ≤ (storeLookupPass env path fuel st mref z names).length ∧
      ∀ i, i < st.length → (storeLookupPass env path fuel st mref z names)[i]? = st[i]?) ∧
    (∀ (env : REnv) (path : List Nat) (st : Store) (lmref : Nat),
      st.length ≤ (storeLookupHost env path fuel st lmref).length ∧
      ∀ i, i < st.length → (storeLookupHost env path fuel st lmref)[i]? = st[i]?) := by
  intro fuel
  induction fuel with
  | zero =>
    refine ⟨?_, ?_, ?_, ?_⟩
    · intro env path st mref traced
      rw [storeRecQuery]
      exact ⟨le_refl _, fun i _ => rfl⟩
    · intro env path st mref qtype traced qname zone z
      rw [storeDriverLoop]
      exact ⟨le_refl _, fun i _ _ => rfl⟩
    · intro env path st mref z names
      rw [storeLookupPass]
      exact ⟨le_refl _, fun i _ => rfl⟩
    · intro env path st lmref
      rw [storeLookupHost]
      exact ⟨le_refl _, fun i _ => rfl⟩
  | succ f ih =>
    obtain ⟨ihR, ihD, ihP, ihH⟩ := ih
    refine ⟨?_, ?_, ?_, ?_⟩
    · -- storeRecQuery: the entry copy is fresh, the loop touches only it
      intro env path st mref traced
      simp only [storeRecQuery]
      refine ⟨?_, ?_⟩
      · exact le_trans (by rw [storeCopy_fst_length]; omega)
          (ihD env path (storeCopy st mref).1 (storeCopy st mref).2 _ traced _ (dstr ".") 1).1
      · intro i hi
        rw [(ihD env path (storeCopy st mref).1 (storeCopy st mref).2 _ traced _ (dstr ".") 1).2
          i (by rw [storeCopy_fst_length]; omega) (by rw [storeCopy_snd]; omega)]
        exact storeCopy_fst_getElem st mref i hi
    · -- storeDriverLoop: writes only the working copy and fresh messages
      intro env path st mref qtype traced qname zone z
      simp only [storeDriverLoop]
      by_cases hz : z < 4
      · simp only [hz, if_true]
        obtain ⟨hl1, hg1⟩ := ihP env path st mref z (env.lookups path z)
        set st1 := storeLookupPass env path f st mref z (env.lookups path z) with hst1
        set st2 := storeSetQName st1 mref qname with hst2
        set st3 := storeParallelCopies st2 mref (env.resp path z).length with hst3
        have e2 : st2.length = st1.length := by
          rw [hst2]
          exact storeSetQName_length st1 mref qname
        have e3 : st2.length ≤ st3.length := by
          rw [hst3]
          exact storeParallelCopies_length mref (env.resp path z).length st2
        have h3 : st.length ≤ st3.length ∧
            ∀ i, i < st.length → i ≠ mref → st3[i]? = st[i]? := by
          constructor
          · omega
          · intro i hi hne
            rw [hst3, storeParallelCopies_getElem mref _ st2 i (by omega),
              hst2, storeSetQName_getElem_ne st1 mref qname i hne]
            exact hg1 i hi
        cases hmsg : (fastestFold (env.resp path z)).msg with
        | none => exact h3
        | some r =>
          dsimp only
          have h4 : st.length ≤ (if traced then (storeCopy st3 mref).1 else st3).length ∧
              ∀ i, i < st.length → i ≠ mref →
                (if traced then (storeCopy st3 mref).1 else st3)[i]? = st[i]? := by
            cases traced with
            | false => simpa using h3
            | true =>
              simp only [if_true]
              refine ⟨le_trans h3.1 (by rw [storeCopy_fst_length]; omega), ?_⟩
              intro i hi hne
              rw [storeCopy_fst_getElem st3 mref i (lt_of_lt_of_le hi h3.1)]
              exact h3.2 i hi hne
          cases hrt : (classifyStep qtype r qname zone).rtype with
          | final => exact h4
          | unknown =>
            refine ⟨le_trans h4.1 (ihD env path _ mref qtype traced _ _ (z + 1)).1, ?_⟩
            intro i hi hne
            rw [(ihD env path _ mref qtype traced _ _ (z + 1)).2 i
              (lt_of_lt_of_le hi h4.1) hne]
            exact h4.2 i hi hne
          | delegation =>
            refine ⟨le_trans h4.1 (ihD env path _ mref qtype traced _ _ (z + 1)).1, ?_⟩
            intro i hi hne
            rw [(ihD env path _ mref qtype traced _ _ (z + 1)).2 i
              (lt_of_lt_of_le hi h4.1) hne]
            exact h4.2 i hi hne
          | cname =>
            refine ⟨le_trans h4.1 (ihD env path _ mref qtype traced _ _ (z + 1)).1, ?_⟩
            intro i hi hne
            rw [(ihD env path _ mref qtype traced _ _ (z + 1)).2 i
              (lt_of_lt_of_le hi h4.1) hne]
            exact h4.2 i hi hne
      · simp only [hz, if_false]
        exact ⟨le_refl _, fun i _ _ => trivial⟩
    · -- storeLookupPass: copies the working message, writes only the copies
      intro env path st mref z names
      cases names with
      | nil =>
        simp only [storeLookupPass]
        exact ⟨le_refl _, fun i _ => trivial⟩
      | cons n rest =>
        simp only [storeLookupPass]
        set st1 := storeSetQuestion (storeCopy st mref).1 (storeCopy st mref).2 n 0 with hst1
        obtain ⟨hlH, hgH⟩ :=
          ihH env (path ++ [z, rest.length]) st1 (storeCopy st mref).2
        set st2 := storeLookupHost env (path ++ [z, rest.length]) f st1 (storeCopy st mref).2
          with hst2
        obtain ⟨hlP, hgP⟩ := ihP env path st2 mref z rest
        have e1 : st1.length = st.length + 1 := by
          rw [hst1, storeSetQuestion_length, storeCopy_fst_length]
        refine ⟨by omega, ?_⟩
        intro i hi
        rw [hgP i (by omega),
          hgH i (by omega),
          hst1, storeSetQuestion_getElem_ne _ _ _ _ i (by rw [storeCopy_snd]; omega)]
        exact storeCopy_fst_getElem st mref i hi
    · -- storeLookupHost: two fresh copies, nested queries on them
      intro env path st lmref
      simp only [storeLookupHost]
      by_cases hp : env.proceed path = true
      · simp only [hp, if_true]
        set st1 := storeSetQType (storeCopy st lmref).1 (storeCopy st lmref).2 typeA with hst1
        obtain ⟨hlR1, hgR1⟩ := ihR env (path ++ [0]) st1 (storeCopy st lmref).2 false
        set st2 := storeRecQuery env (path ++ [0]) f st1 (storeCopy st lmref).2 false with hst2
        set st3 := storeSetQType (storeCopy st2 lmref).1 (storeCopy st2 lmref).2 typeAAAA
          with hst3
        obtain ⟨hlR2, hgR2⟩ := ihR env (path ++ [1]) st3 (storeCopy st2 lmref).2 false
        have e1 : st1.length = st.length + 1 := by
          rw [hst1, storeSetQType_length, storeCopy_fst_length]
        have e3 : st3.length = st2.length + 1 := by
          rw [hst3, storeSetQType_length, storeCopy_fst_length]
        refine ⟨by omega, ?_⟩
        intro i hi
        rw [hgR2 i (by omega),
          hst3, storeSetQType_getElem_ne _ _ _ i (by rw [storeCopy_snd]; omega),
          storeCopy_fst_getElem st2 lmref i (by omega),
          hgR1 i (by omega),
          hst1, storeSetQType_getElem_ne _ _ _ i (by rw [storeCopy_snd]; omega)]
        exact storeCopy_fst_getElem st lmref i hi
      · simp only [hp, Bool.false_eq_true, if_false]
        exact ⟨le_refl _, fun i _ => trivial⟩

/-- C10: `RecursiveQuery(m, tracer)` never mutates the caller's message:
the driver works on a copy made at entry, each wire send and each nested
lookup uses a further per-request copy, and every in-place write
(`Question[0].Name`, `Question[0].Qtype`, `SetQuestion`) targets one of
those copies — so every message live before the call, the caller's `m`
included, is unchanged in the store when the call returns, at every
recursion depth and for every environment. -/
theorem storeRecQuery_frame (fuel : Nat) (env : REnv) (path : List Nat) (st : Store)
    (mref : Nat) (traced : Bool) :
    ∀ i, i < st.length → (storeRecQuery env path fuel st mref traced)[i]? = st[i]? :=
  fun i hi => ((storeFrame_all fuel).1 env path st mref traced).2 i hi

/-- Witness for C10 at a concrete store: a one-message store is preserved
at index 0 by a traced two-fuel run with an empty environment. -/
theorem storeRecQuery_frame_witness :
    (0 : Nat) < ([(⟨[⟨dstr "a.", 1⟩], [], [], []⟩ : Msg)] : Store).length ∧
      (storeRecQuery ⟨fun _ _ => [], fun _ _ => [], fun _ => false⟩ [] 2
          [(⟨[⟨dstr "a.", 1⟩], [], [], []⟩ : Msg)] 0 true)[0]? =
        ([(⟨[⟨dstr "a.", 1⟩], [], [], []⟩ : Msg)] : Store)[0]? :=
  ⟨by decide,
    storeRecQuery_frame 2 ⟨fun _ _ => [], fun _ _ => [], fun _ => false⟩ []
      [(⟨[⟨dstr "a.", 1⟩], [], [], []⟩ : Msg)] 0 true 0 (by decide)⟩

end Dnstrace
